import Mathlib

/-!
Verification of the RS_with_CM Cauchy Reed-Solomon erasure-coding library.

The repository's `src/include/GaloisField.h` declares the GF(2^8) context
(tables `GF256_MUL_TABLE`, `GF256_DIV_TABLE`, `GF256_INV_TABLE` and the inline
scalar operations `gf256_add`, `gf256_mul`, `gf256_div`, `gf256_inv`, and the
inline bulk operation `gf256_div_mem`), and `ReedSolomon.h` declares
`ReedSolomonEncoder::Encode` / `ReedSolomonDecoder::Decode`.  The table
initialisation (`gf256.cpp`) and the encoder/decoder bodies (`cm256.cpp`) are
not part of the sources, so those parts are modelled from the specification,
as indicated on each definition.

The field is GF(2)[x] modulo the polynomial 0x11D, the default fixed by the
specification (high bit implicit: 0x11D = x^8 + x^4 + x^3 + x^2 + 1).
-/

/-- Multiplication by the field generator x in GF(2^8) with reduction
polynomial 0x11D: shift left and, when the former bit 7 was set, XOR with
0x11D (= 285) to clear bit 8. -/
def mulX (a : Nat) : Nat :=
  if a &&& 128 = 0 then a <<< 1 else (a <<< 1) ^^^ 285

/-- Shift-and-add (carry-less, reduction interleaved) product loop: `n` rounds
of examining the low bit of `y`, conditionally XOR-ing `x` into the
accumulator, doubling `x` in the field and halving `y`. -/
def gmulAux : Nat → Nat → Nat → Nat
  | 0, _, _ => 0
  | n+1, x, y => (if y &&& 1 = 1 then x else 0) ^^^ gmulAux n (mulX x) (y >>> 1)

/-- Modelled from the spec: the scalar GF(2^8) product (polynomial
multiplication modulo 0x11D) that populates `GF256_MUL_TABLE` in the missing
`gf256.cpp` ("MUL[(y<<8)+x] = x·y", spec section 3). -/
def gmul (x y : Nat) : Nat := gmulAux 8 x y

/-- Packed byte table: entry `t` (for `t < 255`) is the `t`-th power of the
generator 2 in GF(2^8)/0x11D, stored as the byte at offset `8*t` of this
numeral.  Modelled from the spec: the EXP table of the missing `gf256.cpp`.
The numeral is validated against `gmul` by the exhaustive checks below. -/
def GF256_EXP_PACKED : Nat := 70160881166704368827218703435136616750530459438269794890424969378298545675077208731798828898087927652446353395360628748027273188182808436399538186061104243134188885576122562338679313492324190829158544377810568631194580132524405266702234305646236648896994794467054525044798919765581988418950285252905306116225263236585714808161311289784028762024137133735135393922581566890382566480334369299400480864790538739986285574563168380416343369614948461817839620668187777978661530364712890858126432457562886306102556561631759900551331094983229723298224611133722330829711659991602983068895685602467964643306841827719562658305

/-- Packed byte table: entry `x` (for `0 < x < 256`) is the discrete log of
`x` base 2 in GF(2^8)/0x11D, stored as the byte at offset `8*x`; entry 0 is a
sentinel 0.  Modelled from the spec: the LOG table of the missing
`gf256.cpp`, validated against `GF256_EXP_PACKED` by the checks below. -/
def GF256_LOG_PACKED : Nat := 22135253156888987530748098150270024343632497605293634117281264061560962248099620766229961468867162294233796152347975563017024165690400661622462404646302566225833645086064538892198543335321514950294300187779610338557442029018619797274438901674641748676613670242915365385819254959901651105240253464034662486586186382979728982817772067067513442677601938078891989292316012868233806586592927239821351197800766822366321181463280924672822998103315976779850880337712374790938628529953751181886374687897611504386983350015558142994211516619836411558782076806704747441947939324473761869443721989389604670425385080942269787340800

/-- Byte lookup into the packed EXP table. -/
def expB (t : Nat) : Nat := (GF256_EXP_PACKED >>> (8 * t)) &&& 255

/-- Byte lookup into the packed LOG table. -/
def logB (x : Nat) : Nat := (GF256_LOG_PACKED >>> (8 * x)) &&& 255

/-- Fuel-bounded divide-and-conquer range check: decides whether `p` holds on
every point of `[lo, lo+size)`.  The explicit fuel keeps the recursion depth
logarithmic so that kernel reduction of large instances is cheap. -/
def allRangeF : Nat → Nat → Nat → (Nat → Bool) → Bool
  | 0, lo, size, p => size == 0 || (size == 1 && p lo)
  | f+1, lo, size, p =>
    if size ≤ 1 then size == 0 || p lo
    else allRangeF f lo (size / 2) p && allRangeF f (lo + size / 2) (size - size / 2) p

theorem allRangeF_sound (f : Nat) : ∀ (lo size : Nat) (p : Nat → Bool),
    allRangeF f lo size p = true → ∀ i, lo ≤ i → i < lo + size → p i = true := by
  induction f with
  | zero =>
    intro lo size p h i hlo hi
    simp only [allRangeF, Bool.or_eq_true, Bool.and_eq_true, beq_iff_eq] at h
    rcases h with h | ⟨h1, h2⟩
    · omega
    · have hi' : i = lo := by omega
      rwa [hi']
  | succ f ih =>
    intro lo size p h i hlo hi
    rw [allRangeF] at h
    by_cases hs : size ≤ 1
    · rw [if_pos hs] at h
      simp only [Bool.or_eq_true, beq_iff_eq] at h
      rcases h with h | h
      · omega
      · have hi' : i = lo := by omega
        rwa [hi']
    · rw [if_neg hs] at h
      simp only [Bool.and_eq_true] at h
      rcases h with ⟨h1, h2⟩
      by_cases hc : i < lo + size / 2
      · exact ih lo (size / 2) p h1 i hlo hc
      · exact ih (lo + size / 2) (size - size / 2) p h2 i (by omega) (by omega)

/-- Exhaustively checked facts about the packed tables: every EXP entry is a
nonzero byte, LOG inverts EXP, EXP inverts LOG on nonzero bytes, and LOG of a
nonzero byte is below 255. -/
def tableCase (t : Nat) : Bool :=
  decide (0 < expB t) && decide (expB t < 256) && (logB (expB t) == t) &&
    (expB (logB (t+1)) == t+1) && decide (logB (t+1) < 255)

set_option maxHeartbeats 2000000 in
theorem table_check : allRangeF 9 0 255 tableCase = true := by rfl

theorem tableFacts {t : Nat} (ht : t < 255) :
    0 < expB t ∧ expB t < 256 ∧ logB (expB t) = t ∧ expB (logB (t+1)) = t+1 ∧ logB (t+1) < 255 := by
  have h := allRangeF_sound 9 0 255 _ table_check t (Nat.zero_le _) (by omega)
  simp only [tableCase, Bool.and_eq_true, beq_iff_eq, decide_eq_true_eq] at h
  exact ⟨h.1.1.1.1, h.1.1.1.2, h.1.1.2, h.1.2, h.2⟩

theorem expB_pos {t : Nat} (ht : t < 255) : 0 < expB t := (tableFacts ht).1

theorem expB_lt {t : Nat} (ht : t < 255) : expB t < 256 := (tableFacts ht).2.1

theorem logB_expB {t : Nat} (ht : t < 255) : logB (expB t) = t := (tableFacts ht).2.2.1

theorem expB_logB {x : Nat} (hx0 : 0 < x) (hx : x < 256) : expB (logB x) = x := by
  have h := (tableFacts (t := x - 1) (by omega)).2.2.2.1
  rwa [Nat.sub_add_cancel hx0] at h

theorem logB_lt {x : Nat} (hx0 : 0 < x) (hx : x < 256) : logB x < 255 := by
  have h := (tableFacts (t := x - 1) (by omega)).2.2.2.2
  rwa [Nat.sub_add_cancel hx0] at h

theorem expB_zero : expB 0 = 1 := by rfl

theorem logB_one : logB 1 = 0 := by rfl

theorem gmul_zero_left (y : Nat) : gmul 0 y = 0 := by
  suffices h : ∀ n y, gmulAux n 0 y = 0 from h 8 y
  intro n
  induction n with
  | zero => intro y; rfl
  | succ n ih =>
    intro y
    simp only [gmulAux]
    rw [show mulX 0 = 0 from rfl, ih]
    by_cases hb : y &&& 1 = 1 <;> simp [hb]

theorem gmul_zero_right (x : Nat) : gmul x 0 = 0 := by
  suffices h : ∀ n x, gmulAux n x 0 = 0 from h 8 x
  intro n
  induction n with
  | zero => intro x; rfl
  | succ n ih =>
    intro x
    simp only [gmulAux]
    rw [show (0 : Nat) >>> 1 = 0 from rfl, ih, show ((0 : Nat) &&& 1) = 0 from rfl]
    simp

/-- Single case of the additivity check for `mulX` on bytes. -/
def mulXAddCase (a b : Nat) : Bool := mulX (a ^^^ b) == mulX a ^^^ mulX b

set_option maxHeartbeats 2000000 in
theorem mulXAdd_check :
    allRangeF 9 0 256 (fun b => allRangeF 9 0 256 (fun a => mulXAddCase a b)) = true := by
  rfl

theorem xor_mix (a b c d : Nat) : (a ^^^ b) ^^^ (c ^^^ d) = (a ^^^ c) ^^^ (b ^^^ d) := by
  rw [Nat.xor_assoc, Nat.xor_assoc]
  congr 1
  rw [← Nat.xor_assoc, ← Nat.xor_assoc, Nat.xor_comm b c]

theorem mulX_additive {a b : Nat} (ha : a < 256) (hb : b < 256) :
    mulX (a ^^^ b) = mulX a ^^^ mulX b := by
  have h1 := allRangeF_sound 9 0 256 _ mulXAdd_check b (Nat.zero_le _) (by omega)
  have h2 := allRangeF_sound 9 0 256 _ h1 a (Nat.zero_le _) (by omega)
  simpa [mulXAddCase] using h2

/-- Single case of the byte-closure check for `mulX`. -/
def mulXLtCase (a : Nat) : Bool := decide (mulX a < 256)

theorem mulXLt_check : allRangeF 9 0 256 mulXLtCase = true := by rfl

theorem mulX_lt {a : Nat} (ha : a < 256) : mulX a < 256 := by
  have h := allRangeF_sound 9 0 256 _ mulXLt_check a (Nat.zero_le _) (by omega)
  simpa [mulXLtCase] using h

theorem gmulAux_additive : ∀ (n : Nat) {a b : Nat} (y : Nat), a < 256 → b < 256 →
    gmulAux n (a ^^^ b) y = gmulAux n a y ^^^ gmulAux n b y := by
  intro n
  induction n with
  | zero => intro a b y ha hb; simp [gmulAux]
  | succ n ih =>
    intro a b y ha hb
    simp only [gmulAux]
    rw [mulX_additive ha hb, ih (y >>> 1) (mulX_lt ha) (mulX_lt hb)]
    by_cases hbit : y &&& 1 = 1
    · rw [if_pos hbit, if_pos hbit, if_pos hbit]
      exact xor_mix a b _ _
    · rw [if_neg hbit, if_neg hbit, if_neg hbit]
      simp

theorem gmul_xor_left {a b y : Nat} (ha : a < 256) (hb : b < 256) :
    gmul (a ^^^ b) y = gmul a y ^^^ gmul b y :=
  gmulAux_additive 8 y ha hb

theorem xor_byte_lt {x y : Nat} (hx : x < 256) (hy : y < 256) : x ^^^ y < 256 := by
  have h256 : (256 : Nat) = 2 ^ 8 := rfl
  rw [h256] at hx hy ⊢
  exact Nat.xor_lt_two_pow hx hy

theorem gmulAux_lt : ∀ (n : Nat) {x : Nat} (y : Nat), x < 256 → gmulAux n x y < 256 := by
  intro n
  induction n with
  | zero =>
    intro x y _
    simp [gmulAux]
  | succ n ih =>
    intro x y hx
    simp only [gmulAux]
    apply xor_byte_lt
    · by_cases hb : y &&& 1 = 1
      · rw [if_pos hb]
        exact hx
      · rw [if_neg hb]
        omega
    · exact ih _ (mulX_lt hx)

theorem gmul_byte_lt {x y : Nat} (hx : x < 256) (_hy : y < 256) : gmul x y < 256 :=
  gmulAux_lt 8 y hx

/-- Single case of the multiplicative-identity check for the shift-and-add
product. -/
def gmulOneCase (y : Nat) : Bool := gmul 1 y == y

theorem gmulOne_check : allRangeF 9 0 256 gmulOneCase = true := by rfl

theorem gmul_one_left {x : Nat} (hx : x < 256) : gmul 1 x = x := by
  have h := allRangeF_sound 9 0 256 _ gmulOne_check x (Nat.zero_le _) (by omega)
  simpa [gmulOneCase] using h

/-- Single case of the EXP-table step check: each entry is the previous entry
multiplied by the generator. -/
def expStepCase (t : Nat) : Bool := expB (t+1) == mulX (expB t)

theorem expStep_check : allRangeF 9 0 254 expStepCase = true := by rfl

theorem expB_succ {t : Nat} (ht : t < 254) : expB (t+1) = mulX (expB t) := by
  have h := allRangeF_sound 9 0 254 _ expStep_check t (Nat.zero_le _) (by omega)
  simpa [expStepCase] using h

theorem expB_iter : ∀ t, t ≤ 254 → expB t = mulX^[t] 1 := by
  intro t
  induction t with
  | zero =>
    intro _
    rw [expB_zero]
    rfl
  | succ t ih =>
    intro ht
    rw [expB_succ (by omega), ih (by omega), Function.iterate_succ_apply']

theorem mulX_iter_255 : mulX^[255] 1 = 1 := by
  rw [show (255 : Nat) = 1 + 254 from rfl, Function.iterate_add_apply,
    ← expB_iter 254 (by omega)]
  rfl

theorem mulX_iter_mod : ∀ n, mulX^[n] 1 = expB (n % 255) := by
  intro n
  induction n using Nat.strong_induction_on with
  | _ n ih =>
    by_cases hn : n < 255
    · rw [Nat.mod_eq_of_lt hn, expB_iter n (by omega)]
    · have h : n = (n - 255) + 255 := by omega
      rw [h, Function.iterate_add_apply, mulX_iter_255, ih (n - 255) (by omega)]
      have h2 : (n - 255) % 255 = ((n - 255) + 255) % 255 := by omega
      rw [h2]

theorem mulX_gmulAux : ∀ (n : Nat) {x : Nat} (y : Nat), x < 256 →
    mulX (gmulAux n x y) = gmulAux n (mulX x) y := by
  intro n
  induction n with
  | zero =>
    intro x y _
    simp only [gmulAux]
    rfl
  | succ n ih =>
    intro x y hx
    simp only [gmulAux]
    have h1 : (if y &&& 1 = 1 then x else 0) < 256 := by
      by_cases hb : y &&& 1 = 1
      · rw [if_pos hb]
        exact hx
      · rw [if_neg hb]
        omega
    rw [mulX_additive h1 (gmulAux_lt n _ (mulX_lt hx)), ih (y >>> 1) (mulX_lt hx)]
    by_cases hb : y &&& 1 = 1
    · rw [if_pos hb, if_pos hb]
    · rw [if_neg hb, if_neg hb, show mulX 0 = 0 from rfl]

theorem gmul_mulX_left {x : Nat} (y : Nat) (hx : x < 256) :
    gmul (mulX x) y = mulX (gmul x y) := (mulX_gmulAux 8 y hx).symm

theorem gmul_expB_left : ∀ (t : Nat), t ≤ 254 → ∀ y, y < 256 →
    gmul (expB t) y = mulX^[t] y := by
  intro t
  induction t with
  | zero =>
    intro _ y hy
    rw [expB_zero, gmul_one_left hy]
    rfl
  | succ t ih =>
    intro ht y hy
    rw [expB_succ (by omega), gmul_mulX_left y (expB_lt (by omega)), ih (by omega) y hy,
      Function.iterate_succ_apply']

theorem gmul_eq_explog {x y : Nat} (hx : x < 256) (hy : y < 256) (hx0 : 0 < x) (hy0 : 0 < y) :
    gmul x y = expB ((logB x + logB y) % 255) := by
  have hlx := logB_lt hx0 hx
  have hly := logB_lt hy0 hy
  calc gmul x y = gmul (expB (logB x)) y := by rw [expB_logB hx0 hx]
  _ = mulX^[logB x] y := gmul_expB_left (logB x) (by omega) y hy
  _ = mulX^[logB x] (expB (logB y)) := by rw [expB_logB hy0 hy]
  _ = mulX^[logB x] (mulX^[logB y] 1) := by rw [expB_iter (logB y) (by omega)]
  _ = mulX^[logB x + logB y] 1 := (Function.iterate_add_apply mulX (logB x) (logB y) 1).symm
  _ = expB ((logB x + logB y) % 255) := mulX_iter_mod _

theorem gmul_pos {x y : Nat} (hx : x < 256) (hy : y < 256) (hx0 : 0 < x) (hy0 : 0 < y) :
    0 < gmul x y := by
  rw [gmul_eq_explog hx hy hx0 hy0]
  exact expB_pos (Nat.mod_lt _ (by omega))

theorem gmul_comm {x y : Nat} (hx : x < 256) (hy : y < 256) : gmul x y = gmul y x := by
  rcases Nat.eq_zero_or_pos x with hx0 | hx0
  · rw [hx0, gmul_zero_left, gmul_zero_right]
  rcases Nat.eq_zero_or_pos y with hy0 | hy0
  · rw [hy0, gmul_zero_left, gmul_zero_right]
  rw [gmul_eq_explog hx hy hx0 hy0, gmul_eq_explog hy hx hy0 hx0, Nat.add_comm]

theorem gmul_assoc {x y z : Nat} (hx : x < 256) (hy : y < 256) (hz : z < 256) :
    gmul (gmul x y) z = gmul x (gmul y z) := by
  rcases Nat.eq_zero_or_pos x with hx0 | hx0
  · simp [hx0, gmul_zero_left]
  rcases Nat.eq_zero_or_pos y with hy0 | hy0
  · simp [hy0, gmul_zero_left, gmul_zero_right]
  rcases Nat.eq_zero_or_pos z with hz0 | hz0
  · simp [hz0, gmul_zero_right]
  have hxy := gmul_eq_explog hx hy hx0 hy0
  have hyz := gmul_eq_explog hy hz hy0 hz0
  have hxyl : (logB x + logB y) % 255 < 255 := Nat.mod_lt _ (by omega)
  have hyzl : (logB y + logB z) % 255 < 255 := Nat.mod_lt _ (by omega)
  have hxy_pos : 0 < gmul x y := gmul_pos hx hy hx0 hy0
  have hxy_lt : gmul x y < 256 := gmul_byte_lt hx hy
  have hyz_pos : 0 < gmul y z := gmul_pos hy hz hy0 hz0
  have hyz_lt : gmul y z < 256 := gmul_byte_lt hy hz
  rw [gmul_eq_explog hxy_lt hz hxy_pos hz0, gmul_eq_explog hx hyz_lt hx0 hyz_pos,
    hxy, hyz, logB_expB hxyl, logB_expB hyzl]
  congr 1
  omega

theorem gmul_one_right {x : Nat} (hx : x < 256) : gmul x 1 = x := by
  rw [gmul_comm hx (by omega)]
  exact gmul_one_left hx

theorem gmul_xor_right {y a b : Nat} (hy : y < 256) (ha : a < 256) (hb : b < 256) :
    gmul y (a ^^^ b) = gmul y a ^^^ gmul y b := by
  rw [gmul_comm hy (xor_byte_lt ha hb), gmul_xor_left ha hb,
    gmul_comm ha hy, gmul_comm hb hy]

/-- Field element of GF(2^8): one byte. -/
structure GF256 where
  val : Fin 256
deriving DecidableEq

/-- Underlying byte value of a field element. -/
def GF256.n (a : GF256) : Nat := a.val.val

theorem GF256.n_lt (a : GF256) : a.n < 256 := a.val.isLt

theorem GF256.ext_n {a b : GF256} (h : a.n = b.n) : a = b := by
  cases a with
  | mk v =>
    cases b with
    | mk w => exact congrArg GF256.mk (Fin.ext h)

/-- Byte embedding into the field (reduces modulo 256). -/
def byteGF (x : Nat) : GF256 := ⟨⟨x % 256, Nat.mod_lt x (by omega)⟩⟩

/-- Field addition: byte XOR. -/
def GF256.add (a b : GF256) : GF256 := ⟨⟨a.n ^^^ b.n, xor_byte_lt a.n_lt b.n_lt⟩⟩

/-- Field multiplication: carry-less product modulo 0x11D. -/
def GF256.mul (a b : GF256) : GF256 := ⟨⟨gmul a.n b.n, gmul_byte_lt a.n_lt b.n_lt⟩⟩

/-- Zero of the field. -/
def GF256.zero : GF256 := ⟨⟨0, by omega⟩⟩

/-- One of the field. -/
def GF256.one : GF256 := ⟨⟨1, by omega⟩⟩

/-- Multiplicative inverse by the EXP/LOG tables, with 0 mapped to 0. -/
def GF256.inv (a : GF256) : GF256 :=
  if a.n = 0 then GF256.zero
  else ⟨⟨expB ((255 - logB a.n) % 255), expB_lt (Nat.mod_lt _ (by omega))⟩⟩

theorem gmul_inv_explog {x : Nat} (hx0 : 0 < x) (hx : x < 256) :
    gmul x (expB ((255 - logB x) % 255)) = 1 := by
  have hl := logB_lt hx0 hx
  have harg : (255 - logB x) % 255 < 255 := Nat.mod_lt _ (by omega)
  have hpos := expB_pos harg
  have hlt := expB_lt harg
  rw [gmul_eq_explog hx hlt hx0 hpos, logB_expB harg]
  rcases Nat.eq_zero_or_pos (logB x) with h0 | h0
  · rw [h0, show (0 + (255 - 0) % 255) % 255 = 0 from rfl, expB_zero]
  · rw [Nat.mod_eq_of_lt (show 255 - logB x < 255 by omega),
      show logB x + (255 - logB x) = 255 by omega,
      show (255 : Nat) % 255 = 0 from rfl, expB_zero]

instance : Zero GF256 := ⟨GF256.zero⟩

instance : One GF256 := ⟨GF256.one⟩

instance : Add GF256 := ⟨GF256.add⟩

instance : Mul GF256 := ⟨GF256.mul⟩

instance : Neg GF256 := ⟨fun a => a⟩

instance instCommRingGF256 : CommRing GF256 where
  add := GF256.add
  zero := GF256.zero
  neg a := a
  mul := GF256.mul
  one := GF256.one
  nsmul := nsmulRec
  zsmul := zsmulRec
  add_assoc a b c := GF256.ext_n (Nat.xor_assoc a.n b.n c.n)
  zero_add a := GF256.ext_n (Nat.zero_xor a.n)
  add_zero a := GF256.ext_n (Nat.xor_zero a.n)
  add_comm a b := GF256.ext_n (Nat.xor_comm a.n b.n)
  neg_add_cancel a := GF256.ext_n (Nat.xor_self a.n)
  mul_assoc a b c := GF256.ext_n (gmul_assoc a.n_lt b.n_lt c.n_lt)
  one_mul a := GF256.ext_n (gmul_one_left a.n_lt)
  mul_one a := GF256.ext_n (gmul_one_right a.n_lt)
  zero_mul a := GF256.ext_n (gmul_zero_left a.n)
  mul_zero a := GF256.ext_n (gmul_zero_right a.n)
  left_distrib a b c := GF256.ext_n (gmul_xor_right a.n_lt b.n_lt c.n_lt)
  right_distrib a b c := GF256.ext_n (gmul_xor_left a.n_lt b.n_lt)
  mul_comm a b := GF256.ext_n (gmul_comm a.n_lt b.n_lt)

instance instFieldGF256 : Field GF256 where
  inv := GF256.inv
  exists_pair_ne := ⟨GF256.zero, GF256.one, by decide⟩
  inv_zero := rfl
  mul_inv_cancel a ha := by
    have hn : 0 < a.n := by
      rcases Nat.eq_zero_or_pos a.n with h | h
      · exact absurd (GF256.ext_n (show a.n = (0 : GF256).n from h)) ha
      · exact h
    apply GF256.ext_n
    have hinv : GF256.inv a =
        ⟨⟨expB ((255 - logB a.n) % 255), expB_lt (Nat.mod_lt _ (by omega))⟩⟩ := by
      rw [GF256.inv, if_neg (by omega)]
    show gmul a.n (GF256.inv a).n = 1
    rw [hinv]
    exact gmul_inv_explog hn a.n_lt
  nnqsmul := _
  qsmul := _

theorem GF256.add_n (a b : GF256) : (a + b).n = a.n ^^^ b.n := rfl

theorem GF256.mul_n (a b : GF256) : (a * b).n = gmul a.n b.n := rfl

theorem GF256.zero_n : (0 : GF256).n = 0 := rfl

theorem GF256.one_n : (1 : GF256).n = 1 := rfl

theorem GF256.self_add (a : GF256) : a + a = 0 := GF256.ext_n (Nat.xor_self a.n)

/-- Modelled from the spec: contents of `gf256_ctx::GF256_MUL_TABLE`
(`GaloisField.h` line 103; filled by the missing `gf256.cpp`): the entry at
index `(y<<8)+x` is the field product x·y (spec section 3). -/
def GF256_MUL_TABLE (idx : Nat) : Nat := gmul (idx % 256) (idx / 256)

/-- Modelled from the spec: contents of `gf256_ctx::GF256_INV_TABLE`
(`GaloisField.h` line 105; filled by the missing `gf256.cpp`): INV[0] = 0 by
convention, INV[y] the multiplicative inverse of y (spec section 3). -/
def GF256_INV_TABLE (x : Nat) : Nat :=
  if x = 0 then 0 else expB ((255 - logB x) % 255)

/-- Modelled from the spec: contents of `gf256_ctx::GF256_DIV_TABLE`
(`GaloisField.h` line 104; filled by the missing `gf256.cpp`): the entry at
index `(y<<8)+x` is x/y = x·INV[y] for y ≠ 0; the y = 0 row is unspecified by
the spec and modelled as x·INV[0] = 0. -/
def GF256_DIV_TABLE (idx : Nat) : Nat := gmul (idx % 256) (GF256_INV_TABLE (idx / 256))

/-- Source `gf256_ctx::gf256_add` (`GaloisField.h` lines 187-190): byte XOR
(the uint8_t cast is the reduction modulo 256). -/
def gf256_add (x y : Nat) : Nat := (x ^^^ y) % 256

/-- Source `gf256_ctx::gf256_mul` (`GaloisField.h` lines 194-197): lookup of
`GF256_MUL_TABLE[(y<<8)+x]`. -/
def gf256_mul (x y : Nat) : Nat := GF256_MUL_TABLE ((y <<< 8) + x)

/-- Source `gf256_ctx::gf256_div` (`GaloisField.h` lines 201-204): lookup of
`GF256_DIV_TABLE[(y<<8)+x]`. -/
def gf256_div (x y : Nat) : Nat := GF256_DIV_TABLE ((y <<< 8) + x)

/-- Source `gf256_ctx::gf256_inv` (`GaloisField.h` lines 207-210): lookup of
`GF256_INV_TABLE[x]`. -/
def gf256_inv (x : Nat) : Nat := GF256_INV_TABLE x

/-- Modelled from the spec: the bulk operation `gf256_mul_mem` declared at
`GaloisField.h` lines 168-169 and implemented in the missing `gf256.cpp`:
"z[i] = x[i] · y" (spec section 4.1).  The list is the buffer of length n. -/
def gf256_mul_mem (x : List Nat) (y : Nat) : List Nat := x.map (fun b => gf256_mul b y)

/-- Source `gf256_ctx::gf256_div_mem` (`GaloisField.h` lines 176-181, inline
in the header): multiply by the inverse of y, where y = 1 short-circuits the
INV table lookup to the constant 1. -/
def gf256_div_mem (x : List Nat) (y : Nat) : List Nat :=
  gf256_mul_mem x (if y = 1 then 1 else GF256_INV_TABLE y)

theorem gf256_mul_eq_gmul {x y : Nat} (hx : x < 256) (_hy : y < 256) :
    gf256_mul x y = gmul x y := by
  show gmul (((y <<< 8) + x) % 256) (((y <<< 8) + x) / 256) = gmul x y
  rw [Nat.shiftLeft_eq, show (2:Nat) ^ 8 = 256 from rfl, Nat.mul_comm y 256, Nat.mul_add_mod,
    Nat.mod_eq_of_lt hx, Nat.mul_add_div (by omega), Nat.div_eq_of_lt hx, Nat.add_zero]

theorem gf256_div_eq_gmul_inv {x y : Nat} (hx : x < 256) (_hy : y < 256) :
    gf256_div x y = gmul x (GF256_INV_TABLE y) := by
  show gmul (((y <<< 8) + x) % 256) (GF256_INV_TABLE (((y <<< 8) + x) / 256)) = _
  rw [Nat.shiftLeft_eq, show (2:Nat) ^ 8 = 256 from rfl, Nat.mul_comm y 256, Nat.mul_add_mod,
    Nat.mod_eq_of_lt hx, Nat.mul_add_div (by omega), Nat.div_eq_of_lt hx, Nat.add_zero]

theorem GF256_INV_TABLE_lt {y : Nat} (_hy : y < 256) : GF256_INV_TABLE y < 256 := by
  unfold GF256_INV_TABLE
  by_cases h : y = 0
  · simp [h]
  · rw [if_neg h]
    exact expB_lt (Nat.mod_lt _ (by omega))

/-- Source `EncoderParams` (`ReedSolomon.h` lines 9-18); the counts and block
size are modelled as naturals. -/
structure EncoderParams where
  OriginalCount : Nat
  RecoveryCount : Nat
  BlockBytes : Nat

/-- Source `ReedSolomonEncoder::GetOriginalBlockIndex` (`ReedSolomon.h` lines
78-82): the original block index cast to one unsigned byte. -/
def GetOriginalBlockIndex (_params : EncoderParams) (originalBlockIndex : Nat) : Nat :=
  originalBlockIndex % 256

/-- Source `ReedSolomonEncoder::GetRecoveryBlockIndex` (`ReedSolomon.h` lines
84-88): original count plus recovery block index, cast to one unsigned
byte. -/
def GetRecoveryBlockIndex (params : EncoderParams) (recoveryBlockIndex : Nat) : Nat :=
  (params.OriginalCount + recoveryBlockIndex) % 256

/-- Claim C3: for every byte y and every buffer, `gf256_div_mem` computes the
same result as `gf256_mul_mem` with multiplier `GF256_INV_TABLE[y]`, and for
y = 1 it is a plain byte-for-byte copy of the input buffer. -/
theorem claim_C3 : ∀ y, y < 256 → ∀ x : List Nat, (∀ b ∈ x, b < 256) →
    gf256_div_mem x y = gf256_mul_mem x (GF256_INV_TABLE y) ∧ gf256_div_mem x 1 = x := by
  intro y hy x hx
  constructor
  · unfold gf256_div_mem
    by_cases h1 : y = 1
    · rw [if_pos h1, h1, show GF256_INV_TABLE 1 = 1 from rfl]
    · rw [if_neg h1]
  · unfold gf256_div_mem
    rw [if_pos rfl]
    unfold gf256_mul_mem
    have hcong : ∀ b ∈ x, gf256_mul b 1 = b := by
      intro b hb
      rw [gf256_mul_eq_gmul (hx b hb) (by omega)]
      exact gmul_one_right (hx b hb)
    calc x.map (fun b => gf256_mul b 1) = x.map id := List.map_congr_left hcong
    _ = x := List.map_id x

/-- Witness for C3 at y = 7 and the buffer [0, 1, 2, 255]. -/
theorem claim_C3_witness :
    gf256_div_mem [0, 1, 2, 255] 7 = gf256_mul_mem [0, 1, 2, 255] (GF256_INV_TABLE 7) ∧
      gf256_div_mem [0, 1, 2, 255] 1 = [0, 1, 2, 255] :=
  claim_C3 7 (by decide) [0, 1, 2, 255] (by decide)

/-- Claim C7: division inverts multiplication: for every x in [0,256) and
every y in [1,256), `gf256_div (gf256_mul x y) y = x`. -/
theorem claim_C7 : ∀ x, x < 256 → ∀ y, 1 ≤ y → y < 256 →
    gf256_div (gf256_mul x y) y = x := by
  intro x hx y hy1 hy
  have hml : gmul x y < 256 := gmul_byte_lt hx hy
  rw [gf256_mul_eq_gmul hx hy, gf256_div_eq_gmul_inv hml hy,
    show GF256_INV_TABLE y = expB ((255 - logB y) % 255) from if_neg (by omega),
    gmul_assoc hx hy (expB_lt (Nat.mod_lt _ (by omega))), gmul_inv_explog (by omega) hy,
    gmul_one_right hx]

/-- Witness for C7 at x = 3, y = 7. -/
theorem claim_C7_witness : gf256_div (gf256_mul 3 7) 7 = 3 :=
  claim_C7 3 (by decide) 7 (by decide) (by decide)

/-- Claim C8: `gf256_div` is total and never faults: for all bytes x and y
(including y = 0) the table index (y<<8)+x is within the 256·256-byte DIV
table, and the result is a byte. -/
theorem claim_C8 : ∀ x, x < 256 → ∀ y, y < 256 →
    (y <<< 8) + x < 256 * 256 ∧ gf256_div x y < 256 := by
  intro x hx y hy
  constructor
  · rw [Nat.shiftLeft_eq, show (2:Nat) ^ 8 = 256 from rfl]
    omega
  · rw [gf256_div_eq_gmul_inv hx hy]
    exact gmul_byte_lt hx (GF256_INV_TABLE_lt hy)

/-- Witness for C8 at x = 200, y = 0 (the unspecified-value row). -/
theorem claim_C8_witness : (0 <<< 8) + 200 < 256 * 256 ∧ gf256_div 200 0 < 256 :=
  claim_C8 200 (by decide) 0 (by decide)

/-- Claim C9: for a valid parameter set and recovery block index i below the
recovery count, `GetRecoveryBlockIndex` returns exactly original count + i,
which fits in one unsigned byte (at most 255). -/
theorem claim_C9 : ∀ (params : EncoderParams) (i : Nat),
    1 ≤ params.OriginalCount → params.OriginalCount ≤ 255 →
    1 ≤ params.RecoveryCount → params.RecoveryCount ≤ 255 →
    params.OriginalCount + params.RecoveryCount ≤ 256 →
    i < params.RecoveryCount →
    GetRecoveryBlockIndex params i = params.OriginalCount + i ∧
      params.OriginalCount + i ≤ 255 := by
  intro p i h1 h2 h3 h4 h5 h6
  unfold GetRecoveryBlockIndex
  constructor
  · apply Nat.mod_eq_of_lt
    omega
  · omega

/-- Witness for C9 with original count 3, recovery count 2, index 1. -/
theorem claim_C9_witness :
    GetRecoveryBlockIndex ⟨3, 2, 4⟩ 1 = 3 + 1 ∧ 3 + 1 ≤ 255 :=
  claim_C9 ⟨3, 2, 4⟩ 1 (by decide) (by decide) (by decide) (by decide) (by decide) (by decide)

/-- Claim C10: `gf256_add` is commutative on all byte pairs (indeed on all
naturals, since XOR is commutative). -/
theorem claim_C10 : ∀ x y : Nat, gf256_add x y = gf256_add y x := by
  intro x y
  unfold gf256_add
  rw [Nat.xor_comm]

/-- Source `DataBlock` (`ReedSolomon.h` lines 21-33): the block data and a
one-byte index.  The data is modelled as a function from the `L` byte
positions to field elements. -/
structure DataBlock (L : Nat) where
  Block : Fin L → GF256
  Index : Nat

instance {L : Nat} : Inhabited (DataBlock L) := ⟨⟨fun _ => 0, 0⟩⟩

instance {L : Nat} : DecidableEq (DataBlock L) := fun a b =>
  decidable_of_iff (a.Block = b.Block ∧ a.Index = b.Index)
    (by cases a; cases b; simp [DataBlock.mk.injEq])

instance {ε α : Type} [DecidableEq ε] [DecidableEq α] : DecidableEq (Except ε α) := fun a b =>
  match a, b with
  | Except.ok x, Except.ok y => decidable_of_iff (x = y) (by simp)
  | Except.error e, Except.error f => decidable_of_iff (e = f) (by simp)
  | Except.ok _, Except.error _ => isFalse (fun h => Except.noConfusion h)
  | Except.error _, Except.ok _ => isFalse (fun h => Except.noConfusion h)

/-- Return status of the encoder and decoder entry points (spec section 7);
the C entry points return 0 for success and nonzero codes for these
failures. -/
inductive CmError where
  | parameterError
  | inputError
  | internalError
deriving DecidableEq

/-- Modelled from the spec: the Cauchy X row elements (spec section 3).  The
spec fixes Y_j = j and requires the X elements disjoint from the Y elements
(all pairwise XORs nonzero); its parenthetical sample X_i = r-1-i+128 breaks
that requirement when the original count exceeds 128, so the model uses the
deterministic conforming assignment X_i = original_count + i, the wire index
of recovery block i (spec sections 3 and 4.2 allow any deterministic
conforming assignment). -/
def cauchyX (k i : Nat) : GF256 := byteGF (k + i)

/-- Modelled from the spec: the Cauchy Y column elements, Y_j = j (spec
section 3). -/
def cauchyY (j : Nat) : GF256 := byteGF j

/-- Modelled from the spec: Cauchy coefficient C[i][j] = 1/(X_i ⊕ Y_j),
normalised as required by spec section 4.2 so that row 0 is all ones: each
column j is scaled by the nonzero constant X_0 ⊕ Y_j. -/
def cmCoeff (k i j : Nat) : GF256 :=
  (cauchyX k 0 + cauchyY j) * (cauchyX k i + cauchyY j)⁻¹

/-- Modelled from the spec: one recovery block of the encoder
(`ReedSolomonEncoder::EncodeOneDataBlock`, declared at `ReedSolomon.h` lines
92-96, body in the missing `cm256.cpp`): "for each recovery k, compute
R_k = Σ_j C[k][j] · O_j over GF(2^8)" (spec section 4.2). -/
def EncodeOneDataBlock (k L : Nat) (originals : Fin k → Fin L → GF256) (i : Nat) :
    Fin L → GF256 :=
  fun t => ∑ j : Fin k, cmCoeff k i j.val * originals j t

/-- Modelled from the spec: `ReedSolomonEncoder::Encode` (declared at
`ReedSolomon.h` lines 72-75, body in the missing `cm256.cpp`): validate the
parameters and produce the recovery blocks (spec section 4.2; the input
array's Index fields are ignored during encoding per the `DataBlock` comment,
so the originals are taken in index order). -/
def Encode (k r L : Nat) (originals : Fin k → Fin L → GF256) :
    Except CmError (Fin r → Fin L → GF256) :=
  if 1 ≤ k ∧ 1 ≤ r ∧ k + r ≤ 256 ∧ 1 ≤ L then
    Except.ok (fun i => EncodeOneDataBlock k L originals i.val)
  else Except.error CmError.parameterError

/-- Whether some supplied block carries original index j. -/
def originalPresent (L : Nat) (blocks : List (DataBlock L)) (j : Nat) : Bool :=
  blocks.any (fun b => b.Index == j)

/-- Modelled from the spec: the erasure list E, the increasing list of
original positions not present among the supplied blocks (spec section 4.3,
initialization step 1). -/
def erasureList (k L : Nat) (blocks : List (DataBlock L)) : List Nat :=
  (List.range k).filter (fun j => !originalPresent L blocks j)

/-- The supplied blocks carrying recovery indices, in order of appearance
(spec section 4.3, initialization step 1). -/
def recoveryBlocks (k L : Nat) (blocks : List (DataBlock L)) : List (DataBlock L) :=
  blocks.filter (fun b => decide (k ≤ b.Index))

/-- The supplied blocks carrying original indices, in order of appearance. -/
def survivorBlocks (k L : Nat) (blocks : List (DataBlock L)) : List (DataBlock L) :=
  blocks.filter (fun b => decide (b.Index < k))

/-- Modelled from the spec: right-hand-side construction (spec section 4.3):
fold into a supplied recovery block the contributions of the surviving
originals, R ⊕ Σ_{j surviving} C[row][j] · O_j. -/
def decodeRHS (k L : Nat) (blocks : List (DataBlock L)) (b : DataBlock L) : Fin L → GF256 :=
  fun t => b.Block t +
    ((survivorBlocks k L blocks).map (fun s => cmCoeff k (b.Index - k) s.Index * s.Block t)).sum

/-- Modelled from the spec: the m×m submatrix A with A[a][b] = C[r_a][e_b]
(spec section 4.3), rows indexed by the supplied recoveries in order of
appearance and columns by the erasures in increasing order. -/
def decodeMatrix (k L : Nat) (blocks : List (DataBlock L)) :
    Matrix (Fin (erasureList k L blocks).length) (Fin (erasureList k L blocks).length) GF256 :=
  fun a b => cmCoeff k (((recoveryBlocks k L blocks).getD a.val default).Index - k)
    ((erasureList k L blocks).getD b.val 0)

/-- Linear solve used by the model: x = det(A)⁻¹ · cramer(A, b).  The spec
prescribes a Cauchy LDU factorization but explicitly allows any conformant
solver computing the same values (spec section 4.3); for nonsingular A the
solution of A·x = b is unique, so this computable closed form is that
solution. -/
def solveVec {m : Nat} (A : Matrix (Fin m) (Fin m) GF256) (b : Fin m → GF256) :
    Fin m → GF256 :=
  A.det⁻¹ • Matrix.cramer A b

/-- In-place output assembly (spec section 4.3: recovery blocks are rewritten
in place): original-index blocks are kept unchanged, and the c-th supplied
recovery block in order of appearance is replaced by `sol c`. -/
def applySolution (k L : Nat) :
    List (DataBlock L) → Nat → (Nat → DataBlock L) → List (DataBlock L)
  | [], _, _ => []
  | b :: rest, c, sol =>
    if b.Index < k then b :: applySolution k L rest c sol
    else sol c :: applySolution k L rest (c + 1) sol

/-- Modelled from the spec: the m = 1 fast path (`ReedSolomonDecoder::DecodeM1`,
declared at `ReedSolomon.h` line 144, body in the missing `cm256.cpp`):
O_e = (1 / C[r][e]) · (R_r ⊕ Σ_{j ≠ e} C[r][j] · O_j) (spec section 4.3). -/
def decodeM1 (k L : Nat) (blocks : List (DataBlock L)) (e : Nat) (rb : DataBlock L) :
    Fin L → GF256 :=
  fun t => (cmCoeff k (rb.Index - k) e)⁻¹ * decodeRHS k L blocks rb t

/-- Modelled from the spec: `ReedSolomonDecoder::Decode` (declared at
`ReedSolomon.h` lines 122-124, body in the missing `cm256.cpp`), following
spec section 4.3: validate parameters; partition the supplied blocks and form
the erasure list; return ok immediately when no original is missing; fail
with a parameter error when the erasure count differs from the number of
supplied recoveries; otherwise reconstruct in place through the distinct
m = 1 fast path or the general solver (a singular submatrix is the spec's
"zero pivot", reported as an internal error). -/
def Decode (k r L : Nat) (blocks : List (DataBlock L)) :
    Except CmError (List (DataBlock L)) :=
  if ¬(1 ≤ k ∧ 1 ≤ r ∧ k + r ≤ 256 ∧ 1 ≤ L) then Except.error CmError.parameterError
  else if (erasureList k L blocks).length = 0 then Except.ok blocks
  else if (erasureList k L blocks).length ≠ (recoveryBlocks k L blocks).length then
    Except.error CmError.parameterError
  else if (erasureList k L blocks).length = 1 then
    Except.ok (applySolution k L blocks 0 (fun _ =>
      ⟨decodeM1 k L blocks ((erasureList k L blocks).getD 0 0)
          ((recoveryBlocks k L blocks).getD 0 default),
        (erasureList k L blocks).getD 0 0⟩))
  else if (decodeMatrix k L blocks).det = 0 then Except.error CmError.internalError
  else
    Except.ok (applySolution k L blocks 0 (fun c =>
      if hcm : c < (erasureList k L blocks).length then
        ⟨fun t => solveVec (decodeMatrix k L blocks)
            (fun a => decodeRHS k L blocks ((recoveryBlocks k L blocks).getD a.val default) t)
            ⟨c, hcm⟩,
          (erasureList k L blocks).getD c 0⟩
      else default))

theorem byteGF_n {x : Nat} (hx : x < 256) : (byteGF x).n = x := Nat.mod_eq_of_lt hx

theorem byteGF_add_ne_zero {a b : Nat} (ha : a < 256) (hb : b < 256) (hne : a ≠ b) :
    byteGF a + byteGF b ≠ 0 := by
  intro h
  have hn := congrArg GF256.n h
  rw [GF256.add_n, byteGF_n ha, byteGF_n hb, GF256.zero_n] at hn
  exact hne (Nat.xor_eq_zero.mp hn)

theorem cauchy_sum_ne_zero {k i j : Nat} (hki : k + i < 256) (hj : j < k) :
    cauchyX k i + cauchyY j ≠ 0 :=
  byteGF_add_ne_zero (by omega) (by omega) (by omega)

theorem cmCoeff_row_zero {k j : Nat} (hk : k < 256) (hj : j < k) : cmCoeff k 0 j = 1 := by
  unfold cmCoeff
  exact mul_inv_cancel₀ (cauchy_sum_ne_zero (by omega) hj)

theorem cmCoeff_ne_zero {k i j : Nat} (hki : k + i < 256) (hj : j < k) :
    cmCoeff k i j ≠ 0 := by
  unfold cmCoeff
  exact mul_ne_zero (cauchy_sum_ne_zero (by omega) hj)
    (inv_ne_zero (cauchy_sum_ne_zero hki hj))

/-- Concrete originals of spec scenario 1 (spec section 8): three original
blocks of four bytes each. -/
def exampleOriginals : Fin 3 → Fin 4 → GF256 :=
  fun j t =>
    byteGF (([[1, 2, 3, 4], [0x10, 0x20, 0x30, 0x40],
      [0xA0, 0xB0, 0xC0, 0xD0]].getD j.val []).getD t.val 0)

/-- Claim C4 as amended: recovery block 0 produced by Encode is the plain XOR
(the field sum) of all original blocks at every byte position; for the spec's
concrete scenario (k = 3, block_bytes = 4, originals [01,02,03,04],
[10,20,30,40], [A0,B0,C0,D0]) it equals [B1,92,F3,94].  The claim as stated
expects [B1,92,F3,D4], but the XOR of the last bytes 04, 40, D0 is 94, so the
stated constant contradicts the claim's own XOR formula; see the
counterexample below. -/
theorem claim_C4 :
    (∀ (k r L : Nat) (originals : Fin k → Fin L → GF256) (recs : Fin r → Fin L → GF256),
      1 ≤ k → 1 ≤ r → k + r ≤ 256 → 1 ≤ L →
      Encode k r L originals = Except.ok recs →
      ∀ i : Fin r, i.val = 0 → ∀ t, recs i t = ∑ j : Fin k, originals j t) ∧
    (∀ recs : Fin 1 → Fin 4 → GF256,
      Encode 3 1 4 exampleOriginals = Except.ok recs →
      ∀ t : Fin 4, (recs 0 t).n = [0xB1, 0x92, 0xF3, 0x94].getD t.val 0) := by
  constructor
  · intro k r L O recs hk hr hkr hL henc i hi t
    unfold Encode at henc
    rw [if_pos ⟨hk, hr, hkr, hL⟩] at henc
    have hrecs : recs = fun i => EncodeOneDataBlock k L O i.val := by
      injection henc with h
      exact h.symm
    rw [hrecs]
    show (∑ j : Fin k, cmCoeff k i.val j.val * O j t) = _
    rw [hi]
    apply Finset.sum_congr rfl
    intro j _
    rw [cmCoeff_row_zero (by omega) j.isLt, one_mul]
  · intro recs henc
    have hrecs : recs = fun i => EncodeOneDataBlock 3 4 exampleOriginals i.val := by
      unfold Encode at henc
      rw [if_pos (by omega)] at henc
      injection henc with h
      exact h.symm
    rw [hrecs]
    decide

/-- Counterexample for C4 as stated: at byte position 3 the first recovery
block of the concrete scenario holds 04 XOR 40 XOR D0 = 94, not the claimed
D4. -/
theorem claim_C4_counterexample :
    (EncodeOneDataBlock 3 4 exampleOriginals 0 (3 : Fin 4)).n ≠ 0xD4 ∧
      (EncodeOneDataBlock 3 4 exampleOriginals 0 (3 : Fin 4)).n = 0x94 := by
  constructor
  · decide
  · decide

/-- Witness for C4: byte 0 of the concrete scenario recovery block is B1. -/
theorem claim_C4_witness :
    (EncodeOneDataBlock 3 4 exampleOriginals 0 (0 : Fin 4)).n = 0xB1 := by
  have h := claim_C4.2 (fun i => EncodeOneDataBlock 3 4 exampleOriginals i.val)
    (by decide) (0 : Fin 4)
  exact h

theorem survivor_recovery_length {k L : Nat} (blocks : List (DataBlock L)) :
    (survivorBlocks k L blocks).length + (recoveryBlocks k L blocks).length = blocks.length := by
  unfold survivorBlocks recoveryBlocks
  induction blocks with
  | nil => rfl
  | cons b rest ih =>
    by_cases h : b.Index < k
    · rw [List.filter_cons_of_pos (by simpa using h), List.filter_cons_of_neg (by simp; omega)]
      simp only [List.length_cons]
      omega
    · rw [List.filter_cons_of_neg (by simpa using h), List.filter_cons_of_pos (by simp; omega)]
      simp only [List.length_cons]
      omega

theorem no_erasure_no_recovery {k L : Nat} {blocks : List (DataBlock L)}
    (hlen : blocks.length = k) (hE : erasureList k L blocks = []) :
    (recoveryBlocks k L blocks).length = 0 := by
  have hpres : ∀ j, j < k → originalPresent L blocks j = true := by
    intro j hj
    have h := List.filter_eq_nil_iff.mp hE j (List.mem_range.mpr hj)
    simpa using h
  have hmem : ∀ j, j < k → j ∈ (survivorBlocks k L blocks).map DataBlock.Index := by
    intro j hj
    rcases List.any_eq_true.mp (hpres j hj) with ⟨b, hb, hbj⟩
    have hbj' : b.Index = j := by simpa using hbj
    refine List.mem_map.mpr ⟨b, ?_, hbj'⟩
    unfold survivorBlocks
    refine List.mem_filter.mpr ⟨hb, ?_⟩
    simp only [decide_eq_true_eq]
    omega
  have hsub : Finset.range k ⊆ ((survivorBlocks k L blocks).map DataBlock.Index).toFinset := by
    intro j hj
    exact List.mem_toFinset.mpr (hmem j (Finset.mem_range.mp hj))
  have hcard : k ≤ (survivorBlocks k L blocks).length := by
    have h1 := Finset.card_le_card hsub
    rw [Finset.card_range] at h1
    calc k ≤ ((survivorBlocks k L blocks).map DataBlock.Index).toFinset.card := h1
    _ ≤ ((survivorBlocks k L blocks).map DataBlock.Index).length := List.toFinset_card_le _
    _ = (survivorBlocks k L blocks).length := List.length_map _ _
  have hpart := survivor_recovery_length (k := k) (L := L) blocks
  omega

/-- Claim C5: with valid parameters and exactly original_count supplied
blocks, Decode fails with a parameter error exactly when the number of
missing original positions differs from the number of supplied recovery
blocks; reconstruction is reached only when the two counts are equal. -/
theorem claim_C5 : ∀ (k r L : Nat) (blocks : List (DataBlock L)),
    1 ≤ k → 1 ≤ r → k + r ≤ 256 → 1 ≤ L → blocks.length = k →
    (Decode k r L blocks = Except.error CmError.parameterError ↔
      (erasureList k L blocks).length ≠ (recoveryBlocks k L blocks).length) := by
  intro k r L blocks hk hr hkr hL hlen
  unfold Decode
  rw [if_neg (not_not_intro ⟨hk, hr, hkr, hL⟩)]
  by_cases hE : (erasureList k L blocks).length = 0
  · rw [if_pos hE]
    have h0 : (recoveryBlocks k L blocks).length = 0 :=
      no_erasure_no_recovery hlen (List.length_eq_zero.mp hE)
    constructor
    · intro h
      exact Except.noConfusion h
    · intro hne
      exact absurd (hE.trans h0.symm) hne
  · rw [if_neg hE]
    by_cases hc : (erasureList k L blocks).length ≠ (recoveryBlocks k L blocks).length
    · rw [if_pos hc]
      exact ⟨fun _ => hc, fun _ => rfl⟩
    · rw [if_neg hc]
      by_cases hm : (erasureList k L blocks).length = 1
      · rw [if_pos hm]
        exact ⟨fun h => Except.noConfusion h, fun hne => absurd hne hc⟩
      · rw [if_neg hm]
        by_cases hdet : (decodeMatrix k L blocks).det = 0
        · rw [if_pos hdet]
          constructor
          · intro h
            injection h with h2
            exact CmError.noConfusion h2
          · intro hne
            exact absurd hne hc
        · rw [if_neg hdet]
          exact ⟨fun h => Except.noConfusion h, fun hne => absurd hne hc⟩

/-- Witness for C5: two supplied blocks for k = 2, one survivor and one
recovery covering the single missing original, so the counts match and no
parameter error is raised. -/
theorem claim_C5_witness :
    (Decode 2 1 1 [(⟨fun _ => 0, 0⟩ : DataBlock 1), ⟨fun _ => 0, 2⟩] =
        Except.error CmError.parameterError ↔
      (erasureList 2 1 [(⟨fun _ => 0, 0⟩ : DataBlock 1), ⟨fun _ => 0, 2⟩]).length ≠
        (recoveryBlocks 2 1 [(⟨fun _ => 0, 0⟩ : DataBlock 1), ⟨fun _ => 0, 2⟩]).length) :=
  claim_C5 2 1 1 [⟨fun _ => 0, 0⟩, ⟨fun _ => 0, 2⟩]
    (by decide) (by decide) (by decide) (by decide) (by decide)

/-- Claim C6: degenerate decode is a no-op: with valid parameters, if every
original index is already present among the supplied blocks, Decode returns
ok with the supplied list unchanged (same buffers, same Index fields). -/
theorem claim_C6 : ∀ (k r L : Nat) (blocks : List (DataBlock L)),
    1 ≤ k → 1 ≤ r → k + r ≤ 256 → 1 ≤ L →
    (∀ j, j < k → ∃ b ∈ blocks, b.Index = j) →
    Decode k r L blocks = Except.ok blocks := by
  intro k r L blocks hk hr hkr hL hall
  have hE : erasureList k L blocks = [] := by
    unfold erasureList
    apply List.filter_eq_nil_iff.mpr
    intro j hj
    rcases hall j (List.mem_range.mp hj) with ⟨b, hb, hbj⟩
    have hpres : originalPresent L blocks j = true :=
      List.any_eq_true.mpr ⟨b, hb, by simpa using hbj⟩
    simp [hpres]
  unfold Decode
  rw [if_neg (not_not_intro ⟨hk, hr, hkr, hL⟩),
    if_pos (show (erasureList k L blocks).length = 0 by rw [hE]; rfl)]

/-- Witness for C6: one original block supplied for k = 1. -/
theorem claim_C6_witness :
    Decode 1 1 1 [(⟨fun _ => 0, 0⟩ : DataBlock 1)] =
      Except.ok [(⟨fun _ => 0, 0⟩ : DataBlock 1)] :=
  claim_C6 1 1 1 [⟨fun _ => 0, 0⟩] (by decide) (by decide) (by decide) (by decide) (by decide)

theorem GF256_add_eq_zero_iff {a b : GF256} : a + b = 0 ↔ a = b := by
  constructor
  · intro h
    have hn := congrArg GF256.n h
    rw [GF256.add_n, GF256.zero_n] at hn
    exact GF256.ext_n (Nat.xor_eq_zero.mp hn)
  · intro h
    rw [h]
    exact GF256.self_add b

theorem cauchy_det_ne_zero {m : Nat} (x y : Fin m → GF256)
    (hx : Function.Injective x) (hy : Function.Injective y)
    (hxy : ∀ a b, x a + y b ≠ 0) :
    (Matrix.of fun a b => (x a + y b)⁻¹).det ≠ 0 := by
  rcases Nat.eq_zero_or_pos m with rfl | hm
  · rw [Matrix.det_fin_zero]
    exact one_ne_zero
  intro hdet
  obtain ⟨v, hv, hmv⟩ := Matrix.exists_mulVec_eq_zero_iff_aux.mpr hdet
  have hrow : ∀ a, (∑ b : Fin m, (x a + y b)⁻¹ * v b) = 0 := by
    intro a
    have h := congrFun hmv a
    simpa [Matrix.mulVec, Matrix.dotProduct] using h
  set P : Polynomial GF256 := ∑ b : Fin m,
    Polynomial.C (v b) * ∏ b' ∈ Finset.univ.erase b, (Polynomial.X + Polynomial.C (y b'))
    with hPdef
  have hterm : ∀ a, ∀ b : Fin m, Polynomial.eval (x a)
      (Polynomial.C (v b) * ∏ b' ∈ Finset.univ.erase b, (Polynomial.X + Polynomial.C (y b'))) =
        (∏ b' ∈ Finset.univ, (x a + y b')) * ((x a + y b)⁻¹ * v b) := by
    intro a b
    rw [Polynomial.eval_mul, Polynomial.eval_C, Polynomial.eval_prod]
    simp only [Polynomial.eval_add, Polynomial.eval_X, Polynomial.eval_C]
    rw [← Finset.mul_prod_erase Finset.univ (fun b' => x a + y b') (Finset.mem_univ b),
      mul_mul_mul_comm, mul_inv_cancel₀ (hxy a b), one_mul, mul_comm]
  have heval : ∀ a, Polynomial.eval (x a) P = 0 := by
    intro a
    rw [hPdef, Polynomial.eval_finset_sum]
    calc (∑ b : Fin m, Polynomial.eval (x a)
          (Polynomial.C (v b) * ∏ b' ∈ Finset.univ.erase b, (Polynomial.X + Polynomial.C (y b'))))
        = ∑ b : Fin m, (∏ b' ∈ Finset.univ, (x a + y b')) * ((x a + y b)⁻¹ * v b) :=
          Finset.sum_congr rfl (fun b _ => hterm a b)
    _ = (∏ b' ∈ Finset.univ, (x a + y b')) * (∑ b : Fin m, (x a + y b)⁻¹ * v b) :=
          (Finset.mul_sum _ _ _).symm
    _ = 0 := by rw [hrow a, mul_zero]
  have hdeg : P.natDegree < m := by
    have hle : P.natDegree ≤ m - 1 := by
      rw [hPdef]
      apply Polynomial.natDegree_sum_le_of_forall_le
      intro b _
      refine (Polynomial.natDegree_C_mul_le _ _).trans ?_
      refine (Polynomial.natDegree_prod_le _ _).trans ?_
      have h1 : ∀ b' ∈ Finset.univ.erase b,
          (Polynomial.X + Polynomial.C (y b')).natDegree = 1 :=
        fun b' _ => Polynomial.natDegree_X_add_C _
      rw [Finset.sum_congr rfl h1, Finset.sum_const, smul_eq_mul, mul_one,
        Finset.card_erase_of_mem (Finset.mem_univ b), Finset.card_univ, Fintype.card_fin]
    omega
  have hP0 : P = 0 :=
    Polynomial.eq_zero_of_natDegree_lt_card_of_eval_eq_zero P hx heval
      (by rw [Fintype.card_fin]; omega)
  have hvb : ∀ b, v b = 0 := by
    intro b
    have h0 := congrArg (Polynomial.eval (y b)) hP0
    rw [Polynomial.eval_zero, hPdef, Polynomial.eval_finset_sum] at h0
    have hothers : ∀ b'' ∈ (Finset.univ : Finset (Fin m)), b'' ≠ b →
        Polynomial.eval (y b) (Polynomial.C (v b'') *
          ∏ b' ∈ Finset.univ.erase b'', (Polynomial.X + Polynomial.C (y b'))) = 0 := by
      intro b'' _ hbb
      rw [Polynomial.eval_mul, Polynomial.eval_prod]
      apply mul_eq_zero_of_right
      refine Finset.prod_eq_zero
        (Finset.mem_erase.mpr ⟨fun h => hbb h.symm, Finset.mem_univ b⟩) ?_
      rw [Polynomial.eval_add, Polynomial.eval_X, Polynomial.eval_C]
      exact GF256.self_add (y b)
    have hninv : b ∉ (Finset.univ : Finset (Fin m)) →
        Polynomial.eval (y b) (Polynomial.C (v b) *
          ∏ b' ∈ Finset.univ.erase b, (Polynomial.X + Polynomial.C (y b'))) = 0 :=
      fun hn => absurd (Finset.mem_univ b) hn
    rw [Finset.sum_eq_single b hothers hninv, Polynomial.eval_mul, Polynomial.eval_C,
      Polynomial.eval_prod] at h0
    simp only [Polynomial.eval_add, Polynomial.eval_X, Polynomial.eval_C] at h0
    have hprod : (∏ b' ∈ Finset.univ.erase b, (y b + y b')) ≠ 0 := by
      apply Finset.prod_ne_zero_iff.mpr
      intro b' hb' hzero
      exact (Finset.mem_erase.mp hb').1 (hy (GF256_add_eq_zero_iff.mp hzero)).symm
    rcases mul_eq_zero.mp h0 with h | h
    · exact h
    · exact absurd h hprod
  exact hv (funext fun b => hvb b)

theorem scaled_cauchy_det_ne_zero {m : Nat} (x y s : Fin m → GF256)
    (hx : Function.Injective x) (hy : Function.Injective y)
    (hxy : ∀ a b, x a + y b ≠ 0) (hs : ∀ b, s b ≠ 0) :
    (Matrix.of fun a b => s b * (x a + y b)⁻¹).det ≠ 0 := by
  have heq : (Matrix.of fun a b => s b * (x a + y b)⁻¹) =
      (Matrix.of fun a b => (x a + y b)⁻¹) * Matrix.diagonal s := by
    ext a b
    rw [Matrix.mul_diagonal]
    simp only [Matrix.of_apply]
    exact mul_comm _ _
  rw [heq, Matrix.det_mul, Matrix.det_diagonal]
  exact mul_ne_zero (cauchy_det_ne_zero x y hx hy hxy)
    (Finset.prod_ne_zero_iff.mpr fun b _ => hs b)

theorem solveVec_mulVec {m : Nat} {A : Matrix (Fin m) (Fin m) GF256}
    (hdet : A.det ≠ 0) (b : Fin m → GF256) : A.mulVec (solveVec A b) = b := by
  unfold solveVec
  rw [Matrix.mulVec_smul, Matrix.mulVec_cramer, smul_smul, inv_mul_cancel₀ hdet, one_smul]

theorem solveVec_unique {m : Nat} {A : Matrix (Fin m) (Fin m) GF256}
    (hdet : A.det ≠ 0) {v b : Fin m → GF256} (h : A.mulVec v = b) : solveVec A b = v := by
  unfold solveVec
  rw [← h, Matrix.cramer_eq_adjugate_mulVec, Matrix.mulVec_mulVec, Matrix.adjugate_mul,
    Matrix.smul_mulVec_assoc, Matrix.one_mulVec, smul_smul, inv_mul_cancel₀ hdet, one_smul]

theorem filter_length_partition {α : Type} (p : α → Bool) (l : List α) :
    (l.filter p).length + (l.filter (fun a => !(p a))).length = l.length := by
  induction l with
  | nil => rfl
  | cons a rest ih =>
    by_cases h : p a = true
    · rw [List.filter_cons_of_pos h, List.filter_cons_of_neg (by simp [h])]
      simp only [List.length_cons]
      omega
    · rw [List.filter_cons_of_neg h, List.filter_cons_of_pos (by simp [h])]
      simp only [List.length_cons]
      omega

theorem sum_map_toFinset {l : List Nat} (hl : l.Nodup) (f : Nat → GF256) :
    (l.map f).sum = ∑ j ∈ l.toFinset, f j := by
  induction l with
  | nil => simp
  | cons a rest ih =>
    rw [List.map_cons, List.sum_cons, List.toFinset_cons,
      Finset.sum_insert (by simpa using (List.nodup_cons.mp hl).1),
      ih (List.nodup_cons.mp hl).2]

theorem sum_fin_getD (g : Nat → GF256) : ∀ l : List Nat,
    (∑ i : Fin l.length, g (l.getD i.val 0)) = (l.map g).sum := by
  intro l
  induction l with
  | nil => simp
  | cons a rest ih =>
    have h : (∑ i : Fin (rest.length + 1), g ((a :: rest).getD i.val 0)) =
        g a + ∑ i : Fin rest.length, g (rest.getD i.val 0) := by
      rw [Fin.sum_univ_succ]
      rfl
    rw [List.map_cons, List.sum_cons, ← ih]
    exact h

theorem indices_nodup_filter {L : Nat} {blocks : List (DataBlock L)}
    (h : (blocks.map DataBlock.Index).Nodup) (p : DataBlock L → Bool) :
    ((blocks.filter p).map DataBlock.Index).Nodup :=
  List.Nodup.sublist (List.Sublist.map _ (List.filter_sublist blocks)) h

theorem mem_erasureList {k L : Nat} {blocks : List (DataBlock L)} {j : Nat} :
    j ∈ erasureList k L blocks ↔ j < k ∧ ∀ b ∈ blocks, b.Index ≠ j := by
  unfold erasureList
  rw [List.mem_filter, List.mem_range]
  constructor
  · rintro ⟨hj, hp⟩
    refine ⟨hj, ?_⟩
    intro b hb hbj
    have hpres : originalPresent L blocks j = true :=
      List.any_eq_true.mpr ⟨b, hb, by simpa using hbj⟩
    simp [hpres] at hp
  · rintro ⟨hj, hall⟩
    refine ⟨hj, ?_⟩
    rw [Bool.not_eq_true']
    unfold originalPresent
    rw [List.any_eq_false]
    intro b hb
    simpa using hall b hb

theorem erasureList_nodup (k L : Nat) (blocks : List (DataBlock L)) :
    (erasureList k L blocks).Nodup :=
  List.Nodup.filter _ (List.nodup_range k)

theorem erasure_recovery_count {k L : Nat} {blocks : List (DataBlock L)}
    (hlen : blocks.length = k) (hnodup : (blocks.map DataBlock.Index).Nodup) :
    (erasureList k L blocks).length = (recoveryBlocks k L blocks).length := by
  have hsn : ((survivorBlocks k L blocks).map DataBlock.Index).Nodup :=
    indices_nodup_filter hnodup _
  have hpres_iff : ∀ j, j < k → (originalPresent L blocks j = true ↔
      j ∈ ((survivorBlocks k L blocks).map DataBlock.Index).toFinset) := by
    intro j hj
    rw [List.mem_toFinset, List.mem_map]
    constructor
    · intro hp
      rcases List.any_eq_true.mp hp with ⟨b, hb, hbj⟩
      have hbj' : b.Index = j := by simpa using hbj
      refine ⟨b, ?_, hbj'⟩
      unfold survivorBlocks
      refine List.mem_filter.mpr ⟨hb, ?_⟩
      simp only [decide_eq_true_eq]
      omega
    · rintro ⟨b, hb, hbj⟩
      exact List.any_eq_true.mpr ⟨b, (List.mem_filter.mp hb).1, by simpa using hbj⟩
  have hpsub : ((survivorBlocks k L blocks).map DataBlock.Index).toFinset ⊆ Finset.range k := by
    intro j hj
    rcases List.mem_map.mp (List.mem_toFinset.mp hj) with ⟨b, hb, hbj⟩
    have := (List.mem_filter.mp hb).2
    simp only [decide_eq_true_eq] at this
    rw [Finset.mem_range]
    omega
  have hefin : (erasureList k L blocks).toFinset =
      Finset.range k \ ((survivorBlocks k L blocks).map DataBlock.Index).toFinset := by
    ext j
    rw [List.mem_toFinset, Finset.mem_sdiff, Finset.mem_range, mem_erasureList]
    constructor
    · rintro ⟨hj, hall⟩
      refine ⟨hj, ?_⟩
      intro hmem
      rcases List.mem_map.mp (List.mem_toFinset.mp hmem) with ⟨b, hb, hbj⟩
      exact hall b (List.mem_filter.mp hb).1 hbj
    · rintro ⟨hj, hnotin⟩
      refine ⟨hj, ?_⟩
      intro b hb hbj
      by_cases hbk : b.Index < k
      · apply hnotin
        rw [List.mem_toFinset, List.mem_map]
        refine ⟨b, ?_, hbj⟩
        unfold survivorBlocks
        exact List.mem_filter.mpr ⟨hb, by simp only [decide_eq_true_eq]; omega⟩
      · omega
  have hecard : (erasureList k L blocks).length =
      k - ((survivorBlocks k L blocks).map DataBlock.Index).toFinset.card := by
    rw [← List.toFinset_card_of_nodup (erasureList_nodup k L blocks), hefin,
      Finset.card_sdiff hpsub, Finset.card_range]
  have hscard : ((survivorBlocks k L blocks).map DataBlock.Index).toFinset.card =
      (survivorBlocks k L blocks).length := by
    rw [List.toFinset_card_of_nodup hsn, List.length_map]
  have hsl : (survivorBlocks k L blocks).length ≤ k := by
    have h1 := survivor_recovery_length (k := k) (L := L) blocks
    omega
  have hpart := survivor_recovery_length (k := k) (L := L) blocks
  omega

/-- Total extension of the originals to an arbitrary byte index (zero block
outside the original range); used to express decode results without dependent
indexing. -/
def Oext (k L : Nat) (O : Fin k → Fin L → GF256) (j : Nat) : Fin L → GF256 :=
  if h : j < k then O ⟨j, h⟩ else 0

theorem applySolution_length (k L : Nat) (sol : Nat → DataBlock L) :
    ∀ (bl : List (DataBlock L)) (c0 : Nat),
      (applySolution k L bl c0 sol).length = bl.length := by
  intro bl
  induction bl with
  | nil => intro c0; rfl
  | cons b rest ih =>
    intro c0
    rw [applySolution]
    by_cases hb : b.Index < k
    · rw [if_pos hb]
      simp [ih c0]
    · rw [if_neg hb]
      simp [ih (c0+1)]

theorem applySolution_getD (k L : Nat) (sol : Nat → DataBlock L) :
    ∀ (bl : List (DataBlock L)) (c0 i : Nat), i < bl.length →
      (applySolution k L bl c0 sol).getD i default =
        if (bl.getD i default).Index < k then bl.getD i default
        else sol (c0 + ((bl.take i).filter (fun b => decide (k ≤ b.Index))).length) := by
  intro bl
  induction bl with
  | nil => intro c0 i h; simp at h
  | cons b rest ih =>
    intro c0 i h
    cases i with
    | zero =>
      by_cases hb : b.Index < k
      · rw [applySolution, if_pos hb]
        simp [hb]
      · rw [applySolution, if_neg hb]
        simp [hb]
    | succ i =>
      simp only [List.length_cons] at h
      by_cases hb : b.Index < k
      · rw [applySolution, if_pos hb, List.getD_cons_succ, List.getD_cons_succ,
          List.take_succ_cons, ih c0 i (by omega),
          List.filter_cons_of_neg (by simp only [decide_eq_true_eq]; omega)]
      · rw [applySolution, if_neg hb, List.getD_cons_succ, List.getD_cons_succ,
          List.take_succ_cons, ih (c0+1) i (by omega),
          List.filter_cons_of_pos (by simp only [decide_eq_true_eq]; omega)]
        by_cases h2 : (rest.getD i default).Index < k
        · rw [if_pos h2, if_pos h2]
        · rw [if_neg h2, if_neg h2]
          congr 1
          rw [List.length_cons]
          omega

theorem applySolution_mem_orig (k L : Nat) (sol : Nat → DataBlock L) :
    ∀ (bl : List (DataBlock L)) (c0 : Nat) (b : DataBlock L), b ∈ bl → b.Index < k →
      b ∈ applySolution k L bl c0 sol := by
  intro bl
  induction bl with
  | nil => intro c0 b hb _; simp at hb
  | cons a rest ih =>
    intro c0 b hb hbk
    rcases List.mem_cons.mp hb with rfl | hb'
    · rw [applySolution, if_pos hbk]
      exact List.mem_cons_self _ _
    · rw [applySolution]
      by_cases ha : a.Index < k
      · rw [if_pos ha]
        exact List.mem_cons_of_mem _ (ih c0 b hb' hbk)
      · rw [if_neg ha]
        exact List.mem_cons_of_mem _ (ih (c0+1) b hb' hbk)

theorem applySolution_mem_sol (k L : Nat) (sol : Nat → DataBlock L) :
    ∀ (bl : List (DataBlock L)) (c0 c' : Nat),
      c' < (bl.filter (fun b => decide (k ≤ b.Index))).length →
      sol (c0 + c') ∈ applySolution k L bl c0 sol := by
  intro bl
  induction bl with
  | nil => intro c0 c' hc; simp at hc
  | cons a rest ih =>
    intro c0 c' hc
    by_cases ha : a.Index < k
    · rw [List.filter_cons_of_neg (by simp only [decide_eq_true_eq]; omega)] at hc
      rw [applySolution, if_pos ha]
      exact List.mem_cons_of_mem _ (ih c0 c' hc)
    · rw [List.filter_cons_of_pos (by simp only [decide_eq_true_eq]; omega)] at hc
      rw [applySolution, if_neg ha]
      cases c' with
      | zero =>
        rw [Nat.add_zero]
        exact List.mem_cons_self _ _
      | succ c'' =>
        rw [List.length_cons] at hc
        have harith : c0 + (c'' + 1) = (c0 + 1) + c'' := by omega
        rw [harith]
        exact List.mem_cons_of_mem _ (ih (c0+1) c'' (by omega))

theorem take_filter_lt {α : Type} [Inhabited α] (p : α → Bool) :
    ∀ (bl : List α) (i : Nat), i < bl.length → p (bl.getD i default) = true →
      ((bl.take i).filter p).length < (bl.filter p).length := by
  intro bl
  induction bl with
  | nil => intro i h _; simp at h
  | cons a rest ih =>
    intro i h hp
    cases i with
    | zero =>
      rw [List.getD_cons_zero] at hp
      rw [List.take_zero, List.filter_nil, List.filter_cons_of_pos hp]
      simp
    | succ i =>
      simp only [List.length_cons] at h
      rw [List.getD_cons_succ] at hp
      rw [List.take_succ_cons]
      by_cases ha : p a = true
      · rw [List.filter_cons_of_pos ha, List.filter_cons_of_pos ha]
        simp only [List.length_cons]
        have := ih i (by omega) hp
        omega
      · rw [List.filter_cons_of_neg ha, List.filter_cons_of_neg ha]
        exact ih i (by omega) hp

theorem mem_recoveryBlocks {k L : Nat} {blocks : List (DataBlock L)} {b : DataBlock L} :
    b ∈ recoveryBlocks k L blocks ↔ b ∈ blocks ∧ k ≤ b.Index := by
  unfold recoveryBlocks
  rw [List.mem_filter]
  simp

theorem mem_survivorBlocks {k L : Nat} {blocks : List (DataBlock L)} {b : DataBlock L} :
    b ∈ survivorBlocks k L blocks ↔ b ∈ blocks ∧ b.Index < k := by
  unfold survivorBlocks
  rw [List.mem_filter]
  simp

theorem getD_mem_of_lt {α : Type} [Inhabited α] {l : List α} {i : Nat} (h : i < l.length) :
    l.getD i default ∈ l := by
  rw [List.getD_eq_getElem _ _ h]
  exact List.getElem_mem h

theorem nodup_getD_inj {l : List Nat} (hl : l.Nodup) {i j : Nat}
    (hi : i < l.length) (hj : j < l.length) (h : l.getD i 0 = l.getD j 0) : i = j := by
  rw [List.getD_eq_getElem _ _ hi, List.getD_eq_getElem _ _ hj] at h
  have hinj := List.nodup_iff_injective_get.mp hl
  have h2 : l.get ⟨i, hi⟩ = l.get ⟨j, hj⟩ := by
    rw [List.get_eq_getElem, List.get_eq_getElem]
    exact h
  have h3 := hinj h2
  exact congrArg Fin.val h3

theorem DataBlock.ext' {L : Nat} {a b : DataBlock L}
    (h1 : a.Block = b.Block) (h2 : a.Index = b.Index) : a = b := by
  cases a
  cases b
  cases h1
  cases h2
  rfl

theorem byteGF_inj {a b : Nat} (ha : a < 256) (hb : b < 256) (h : byteGF a = byteGF b) :
    a = b := by
  have hn := congrArg GF256.n h
  rwa [byteGF_n ha, byteGF_n hb] at hn

theorem getD_map_index {L : Nat} {l : List (DataBlock L)} {i : Nat} (h : i < l.length) :
    (l.map DataBlock.Index).getD i 0 = (l.getD i default).Index := by
  rw [List.getD_eq_getElem _ _ (by simpa using h), List.getD_eq_getElem _ _ h]
  exact List.getElem_map _

theorem present_subset_range {k L : Nat} (blocks : List (DataBlock L)) :
    ((survivorBlocks k L blocks).map DataBlock.Index).toFinset ⊆ Finset.range k := by
  intro j hj
  rcases List.mem_map.mp (List.mem_toFinset.mp hj) with ⟨b, hb, hbj⟩
  have h2 := (List.mem_filter.mp hb).2
  simp only [decide_eq_true_eq] at h2
  rw [Finset.mem_range]
  omega

theorem erasure_toFinset {k L : Nat} (blocks : List (DataBlock L)) :
    (erasureList k L blocks).toFinset =
      Finset.range k \ ((survivorBlocks k L blocks).map DataBlock.Index).toFinset := by
  ext j
  rw [List.mem_toFinset, Finset.mem_sdiff, Finset.mem_range, mem_erasureList]
  constructor
  · rintro ⟨hj, hall⟩
    refine ⟨hj, ?_⟩
    intro hmem
    rcases List.mem_map.mp (List.mem_toFinset.mp hmem) with ⟨b, hb, hbj⟩
    exact hall b (List.mem_filter.mp hb).1 hbj
  · rintro ⟨hj, hnotin⟩
    refine ⟨hj, ?_⟩
    intro b hb hbj
    by_cases hbk : b.Index < k
    · apply hnotin
      rw [List.mem_toFinset, List.mem_map]
      refine ⟨b, ?_, hbj⟩
      unfold survivorBlocks
      exact List.mem_filter.mpr ⟨hb, by simp only [decide_eq_true_eq]; omega⟩
    · omega

theorem decodeRHS_eq {k L : Nat} {O : Fin k → Fin L → GF256} {blocks : List (DataBlock L)}
    (hnodup : (blocks.map DataBlock.Index).Nodup)
    (horig : ∀ b ∈ blocks, ∀ h : b.Index < k, b.Block = O ⟨b.Index, h⟩)
    (hrecB : ∀ b ∈ blocks, k ≤ b.Index → b.Block = EncodeOneDataBlock k L O (b.Index - k))
    {b : DataBlock L} (hb : b ∈ recoveryBlocks k L blocks) (t : Fin L) :
    decodeRHS k L blocks b t =
      ∑ j ∈ (erasureList k L blocks).toFinset,
        cmCoeff k (b.Index - k) j * Oext k L O j t := by
  obtain ⟨hbmem, hbk⟩ := mem_recoveryBlocks.mp hb
  have hbBlock := hrecB b hbmem hbk
  unfold decodeRHS
  have hmapeq : (survivorBlocks k L blocks).map
      (fun s => cmCoeff k (b.Index - k) s.Index * s.Block t) =
      ((survivorBlocks k L blocks).map DataBlock.Index).map
        (fun j => cmCoeff k (b.Index - k) j * Oext k L O j t) := by
    rw [List.map_map]
    apply List.map_congr_left
    intro s hs
    obtain ⟨hsmem, hsk⟩ := mem_survivorBlocks.mp hs
    show cmCoeff k (b.Index - k) s.Index * s.Block t =
      cmCoeff k (b.Index - k) s.Index * Oext k L O s.Index t
    rw [horig s hsmem hsk]
    unfold Oext
    rw [dif_pos hsk]
  have hsurv : ((survivorBlocks k L blocks).map
      (fun s => cmCoeff k (b.Index - k) s.Index * s.Block t)).sum =
      ∑ j ∈ ((survivorBlocks k L blocks).map DataBlock.Index).toFinset,
        cmCoeff k (b.Index - k) j * Oext k L O j t := by
    have hsn : ((survivorBlocks k L blocks).map DataBlock.Index).Nodup :=
      indices_nodup_filter hnodup _
    rw [hmapeq, sum_map_toFinset hsn _]
  have henc : b.Block t = ∑ j ∈ Finset.range k,
      cmCoeff k (b.Index - k) j * Oext k L O j t := by
    rw [hbBlock]
    show (∑ j : Fin k, cmCoeff k (b.Index - k) j.val * O j t) = _
    rw [← Fin.sum_univ_eq_sum_range (fun j => cmCoeff k (b.Index - k) j * Oext k L O j t) k]
    apply Finset.sum_congr rfl
    intro j _
    show cmCoeff k (b.Index - k) j.val * O j t =
      cmCoeff k (b.Index - k) j.val * Oext k L O j.val t
    unfold Oext
    rw [dif_pos j.isLt, Fin.eta]
  rw [henc, hsurv, erasure_toFinset,
    ← Finset.sum_sdiff (present_subset_range (k := k) (L := L) blocks),
    add_assoc, GF256.self_add, add_zero]

theorem getD_mem_nat {l : List Nat} {i : Nat} (h : i < l.length) : l.getD i 0 ∈ l :=
  getD_mem_of_lt h

theorem decode_solve_eq {k r L : Nat} {O : Fin k → Fin L → GF256} {blocks : List (DataBlock L)}
    (hk : 1 ≤ k) (hr : 1 ≤ r) (hkr : k + r ≤ 256)
    (hlen : blocks.length = k)
    (hnodup : (blocks.map DataBlock.Index).Nodup)
    (horig : ∀ b ∈ blocks, ∀ h : b.Index < k, b.Block = O ⟨b.Index, h⟩)
    (hrange : ∀ b ∈ blocks, b.Index < k + r)
    (hrecB : ∀ b ∈ blocks, k ≤ b.Index → b.Block = EncodeOneDataBlock k L O (b.Index - k)) :
    (decodeMatrix k L blocks).det ≠ 0 ∧
    ∀ t : Fin L, solveVec (decodeMatrix k L blocks)
        (fun a => decodeRHS k L blocks
          ((recoveryBlocks k L blocks).getD a.val default) t) =
      fun bq => Oext k L O ((erasureList k L blocks).getD bq.val 0) t := by
  have hER : (erasureList k L blocks).length = (recoveryBlocks k L blocks).length :=
    erasure_recovery_count hlen hnodup
  have hrn : ((recoveryBlocks k L blocks).map DataBlock.Index).Nodup :=
    indices_nodup_filter hnodup _
  have hEk : ∀ {c : Nat}, c < (erasureList k L blocks).length →
      (erasureList k L blocks).getD c 0 < k := by
    intro c hc
    exact (mem_erasureList.mp (getD_mem_nat hc)).1
  have hRb : ∀ {a : Nat}, a < (erasureList k L blocks).length →
      k ≤ ((recoveryBlocks k L blocks).getD a default).Index ∧
        ((recoveryBlocks k L blocks).getD a default).Index < k + r := by
    intro a ha
    have hmem := getD_mem_of_lt (l := recoveryBlocks k L blocks) (hER ▸ ha)
    obtain ⟨hbm, hbk⟩ := mem_recoveryBlocks.mp hmem
    exact ⟨hbk, hrange _ hbm⟩
  have hdet : (decodeMatrix k L blocks).det ≠ 0 := by
    have hmat : decodeMatrix k L blocks = Matrix.of (fun a bq =>
        (cauchyX k 0 + cauchyY ((erasureList k L blocks).getD bq.val 0)) *
          (cauchyX k (((recoveryBlocks k L blocks).getD a.val default).Index - k) +
            cauchyY ((erasureList k L blocks).getD bq.val 0))⁻¹) := rfl
    rw [hmat]
    apply scaled_cauchy_det_ne_zero
      (fun a => cauchyX k (((recoveryBlocks k L blocks).getD a.val default).Index - k))
      (fun bq => cauchyY ((erasureList k L blocks).getD bq.val 0))
      (fun bq => cauchyX k 0 + cauchyY ((erasureList k L blocks).getD bq.val 0))
    · intro a a' hxx
      have hka := hRb a.isLt
      have hka' := hRb a'.isLt
      have hxx' : byteGF (k + (((recoveryBlocks k L blocks).getD a.val default).Index - k)) =
          byteGF (k + (((recoveryBlocks k L blocks).getD a'.val default).Index - k)) := hxx
      rw [Nat.add_sub_cancel' hka.1, Nat.add_sub_cancel' hka'.1] at hxx'
      have hidx := byteGF_inj (by omega) (by omega) hxx'
      have h1 : ((recoveryBlocks k L blocks).map DataBlock.Index).getD a.val 0 =
          ((recoveryBlocks k L blocks).map DataBlock.Index).getD a'.val 0 := by
        rw [getD_map_index (hER ▸ a.isLt), getD_map_index (hER ▸ a'.isLt)]
        exact hidx
      have := nodup_getD_inj hrn (by simpa using hER ▸ a.isLt)
        (by simpa using hER ▸ a'.isLt) h1
      exact Fin.ext this
    · intro bq bq' hyy
      have hbq := hEk bq.isLt
      have hbq' := hEk bq'.isLt
      have hyy' : byteGF ((erasureList k L blocks).getD bq.val 0) =
          byteGF ((erasureList k L blocks).getD bq'.val 0) := hyy
      have := byteGF_inj (by omega) (by omega) hyy'
      exact Fin.ext (nodup_getD_inj (erasureList_nodup k L blocks) bq.isLt bq'.isLt this)
    · intro a bq
      have hka := hRb a.isLt
      have hbq := hEk bq.isLt
      show byteGF (k + (((recoveryBlocks k L blocks).getD a.val default).Index - k)) +
          byteGF ((erasureList k L blocks).getD bq.val 0) ≠ 0
      rw [Nat.add_sub_cancel' hka.1]
      exact byteGF_add_ne_zero (by omega) (by omega) (by omega)
    · intro bq
      have hbq := hEk bq.isLt
      exact cauchy_sum_ne_zero (by omega) hbq
  refine ⟨hdet, ?_⟩
  intro t
  apply solveVec_unique hdet
  funext a
  show (∑ bq : Fin (erasureList k L blocks).length,
      decodeMatrix k L blocks a bq *
        Oext k L O ((erasureList k L blocks).getD bq.val 0) t) = _
  have hstep : (∑ bq : Fin (erasureList k L blocks).length,
      decodeMatrix k L blocks a bq *
        Oext k L O ((erasureList k L blocks).getD bq.val 0) t) =
      ∑ i : Fin (erasureList k L blocks).length,
        (fun j => cmCoeff k (((recoveryBlocks k L blocks).getD a.val default).Index - k) j *
          Oext k L O j t) ((erasureList k L blocks).getD i.val 0) := rfl
  rw [hstep]
  have h2 := sum_fin_getD
    (fun j => cmCoeff k (((recoveryBlocks k L blocks).getD a.val default).Index - k) j *
      Oext k L O j t) (erasureList k L blocks)
  rw [h2, sum_map_toFinset (erasureList_nodup k L blocks) _]
  exact (decodeRHS_eq hnodup horig hrecB
    (getD_mem_of_lt (l := recoveryBlocks k L blocks) (hER ▸ a.isLt)) t).symm

theorem decode_m1_eq {k r L : Nat} {O : Fin k → Fin L → GF256} {blocks : List (DataBlock L)}
    (_hk : 1 ≤ k) (_hr : 1 ≤ r) (hkr : k + r ≤ 256)
    (hlen : blocks.length = k)
    (hnodup : (blocks.map DataBlock.Index).Nodup)
    (horig : ∀ b ∈ blocks, ∀ h : b.Index < k, b.Block = O ⟨b.Index, h⟩)
    (hrange : ∀ b ∈ blocks, b.Index < k + r)
    (hrecB : ∀ b ∈ blocks, k ≤ b.Index → b.Block = EncodeOneDataBlock k L O (b.Index - k))
    (hE1 : (erasureList k L blocks).length = 1) :
    ∀ t, decodeM1 k L blocks ((erasureList k L blocks).getD 0 0)
        ((recoveryBlocks k L blocks).getD 0 default) t =
      Oext k L O ((erasureList k L blocks).getD 0 0) t := by
  intro t
  have hER := erasure_recovery_count hlen hnodup
  set e := (erasureList k L blocks).getD 0 0 with he
  set rb := (recoveryBlocks k L blocks).getD 0 default with hrb
  have hrbm : rb ∈ recoveryBlocks k L blocks := getD_mem_of_lt (by omega)
  obtain ⟨hrbmem, hrbk⟩ := mem_recoveryBlocks.mp hrbm
  have hrbr : rb.Index < k + r := hrange rb hrbmem
  have hek : e < k := (mem_erasureList.mp (getD_mem_nat (by omega))).1
  have hEe : erasureList k L blocks = [e] := by
    rcases List.length_eq_one.mp hE1 with ⟨a, ha⟩
    have hae : a = e := by rw [he, ha]; rfl
    rw [ha, hae]
  unfold decodeM1
  rw [decodeRHS_eq hnodup horig hrecB hrbm t, hEe,
    show ([e] : List Nat).toFinset = {e} from by simp, Finset.sum_singleton,
    ← mul_assoc, inv_mul_cancel₀ (cmCoeff_ne_zero (by omega) hek), one_mul]

theorem applySolution_conclusions {k L : Nat} {O : Fin k → Fin L → GF256}
    {blocks : List (DataBlock L)} (sol : Nat → DataBlock L)
    (horig : ∀ b ∈ blocks, ∀ h : b.Index < k, b.Block = O ⟨b.Index, h⟩)
    (hER : (erasureList k L blocks).length = (recoveryBlocks k L blocks).length)
    (hsol : ∀ c, c < (erasureList k L blocks).length →
      sol c = ⟨Oext k L O ((erasureList k L blocks).getD c 0),
        (erasureList k L blocks).getD c 0⟩) :
    (applySolution k L blocks 0 sol).length = blocks.length ∧
    (∀ i, i < blocks.length → (blocks.getD i default).Index < k →
      (applySolution k L blocks 0 sol).getD i default = blocks.getD i default) ∧
    (∀ i, i < blocks.length → k ≤ (blocks.getD i default).Index →
      ∃ e, ∃ he : e < k, (∀ b ∈ blocks, b.Index ≠ e) ∧
        ((applySolution k L blocks 0 sol).getD i default).Index = e ∧
        ((applySolution k L blocks 0 sol).getD i default).Block = O ⟨e, he⟩) ∧
    (∀ j : Fin k, (⟨O j, j.val⟩ : DataBlock L) ∈ applySolution k L blocks 0 sol) := by
  have hfilterR : (blocks.filter (fun b => decide (k ≤ b.Index))).length =
      (recoveryBlocks k L blocks).length := rfl
  refine ⟨applySolution_length k L sol blocks 0, ?_, ?_, ?_⟩
  · intro i hi hki
    rw [applySolution_getD k L sol blocks 0 i hi, if_pos hki]
  · intro i hi hki
    rw [applySolution_getD k L sol blocks 0 i hi, if_neg (by omega)]
    have hcnt : ((blocks.take i).filter (fun b => decide (k ≤ b.Index))).length <
        (erasureList k L blocks).length := by
      have h1 := take_filter_lt (fun b => decide (k ≤ b.Index)) blocks i hi
        (by simp only [decide_eq_true_eq]; omega)
      omega
    rw [Nat.zero_add, hsol _ hcnt]
    have hek := mem_erasureList.mp (getD_mem_nat hcnt)
    refine ⟨(erasureList k L blocks).getD
      ((blocks.take i).filter (fun b => decide (k ≤ b.Index))).length 0, hek.1, hek.2, rfl, ?_⟩
    show Oext k L O ((erasureList k L blocks).getD
      ((blocks.take i).filter (fun b => decide (k ≤ b.Index))).length 0) = _
    unfold Oext
    rw [dif_pos hek.1]
  · intro j
    by_cases hp : ∃ b ∈ blocks, b.Index = j.val
    · rcases hp with ⟨b, hb, hbj⟩
      have hbk : b.Index < k := by rw [hbj]; exact j.isLt
      have hbeq : b = ⟨O j, j.val⟩ := by
        refine DataBlock.ext' ?_ hbj
        rw [horig b hb hbk]
        show O ⟨b.Index, hbk⟩ = O j
        exact congrArg O (Fin.ext hbj)
      rw [← hbeq]
      exact applySolution_mem_orig k L sol blocks 0 b hb hbk
    · have hmem : j.val ∈ erasureList k L blocks := by
        rw [mem_erasureList]
        push_neg at hp
        exact ⟨j.isLt, hp⟩
      rcases List.mem_iff_getElem.mp hmem with ⟨c, hc, hce⟩
      have hcE : (erasureList k L blocks).getD c 0 = j.val := by
        rw [List.getD_eq_getElem _ _ hc]
        exact hce
      have hsc : sol (0 + c) ∈ applySolution k L blocks 0 sol := by
        apply applySolution_mem_sol
        omega
      have hsolc := hsol c hc
      rw [Nat.zero_add, hsolc, hcE] at hsc
      have hblk : Oext k L O j.val = O j := by
        unfold Oext
        rw [dif_pos j.isLt, Fin.eta]
      rwa [hblk] at hsc

theorem Decode_correct {k r L : Nat} (O : Fin k → Fin L → GF256) (blocks : List (DataBlock L))
    (hk : 1 ≤ k) (hr : 1 ≤ r) (hkr : k + r ≤ 256) (hL : 1 ≤ L)
    (hlen : blocks.length = k)
    (hnodup : (blocks.map DataBlock.Index).Nodup)
    (horig : ∀ b ∈ blocks, ∀ h : b.Index < k, b.Block = O ⟨b.Index, h⟩)
    (hrange : ∀ b ∈ blocks, b.Index < k + r)
    (hrecB : ∀ b ∈ blocks, k ≤ b.Index → b.Block = EncodeOneDataBlock k L O (b.Index - k)) :
    ∃ out, Decode k r L blocks = Except.ok out ∧
      out.length = blocks.length ∧
      (∀ i, i < blocks.length → (blocks.getD i default).Index < k →
        out.getD i default = blocks.getD i default) ∧
      (∀ i, i < blocks.length → k ≤ (blocks.getD i default).Index →
        ∃ e, ∃ he : e < k, (∀ b ∈ blocks, b.Index ≠ e) ∧
          (out.getD i default).Index = e ∧ (out.getD i default).Block = O ⟨e, he⟩) ∧
      (∀ j : Fin k, (⟨O j, j.val⟩ : DataBlock L) ∈ out) := by
  have hER := erasure_recovery_count hlen hnodup
  have hvalid : ¬¬(1 ≤ k ∧ 1 ≤ r ∧ k + r ≤ 256 ∧ 1 ≤ L) := not_not_intro ⟨hk, hr, hkr, hL⟩
  by_cases hE0 : (erasureList k L blocks).length = 0
  · refine ⟨blocks, ?_, rfl, ?_, ?_, ?_⟩
    · unfold Decode
      rw [if_neg hvalid, if_pos hE0]
    · intro i _ _
      rfl
    · intro i hi hki
      exfalso
      have hbm : blocks.getD i default ∈ blocks := getD_mem_of_lt hi
      have hR : blocks.getD i default ∈ recoveryBlocks k L blocks :=
        mem_recoveryBlocks.mpr ⟨hbm, hki⟩
      have := List.length_pos.mpr (List.ne_nil_of_mem hR)
      omega
    · intro j
      by_cases hp : ∃ b ∈ blocks, b.Index = j.val
      · rcases hp with ⟨b, hb, hbj⟩
        have hbk : b.Index < k := by rw [hbj]; exact j.isLt
        have hbeq : b = ⟨O j, j.val⟩ := by
          refine DataBlock.ext' ?_ hbj
          rw [horig b hb hbk]
          show O ⟨b.Index, hbk⟩ = O j
          exact congrArg O (Fin.ext hbj)
        rw [← hbeq]
        exact hb
      · exfalso
        have hmem : j.val ∈ erasureList k L blocks := by
          rw [mem_erasureList]
          push_neg at hp
          exact ⟨j.isLt, hp⟩
        have := List.length_pos.mpr (List.ne_nil_of_mem hmem)
        omega
  have hcnot : ¬((erasureList k L blocks).length ≠ (recoveryBlocks k L blocks).length) :=
    fun h => h hER
  by_cases hE1 : (erasureList k L blocks).length = 1
  · refine ⟨applySolution k L blocks 0 (fun _ =>
      ⟨decodeM1 k L blocks ((erasureList k L blocks).getD 0 0)
          ((recoveryBlocks k L blocks).getD 0 default),
        (erasureList k L blocks).getD 0 0⟩), ?_, ?_⟩
    · unfold Decode
      rw [if_neg hvalid, if_neg hE0, if_neg hcnot, if_pos hE1]
    · have hsol : ∀ c, c < (erasureList k L blocks).length →
          ((fun _ => (⟨decodeM1 k L blocks ((erasureList k L blocks).getD 0 0)
              ((recoveryBlocks k L blocks).getD 0 default),
            (erasureList k L blocks).getD 0 0⟩ : DataBlock L)) c) =
          ⟨Oext k L O ((erasureList k L blocks).getD c 0),
            (erasureList k L blocks).getD c 0⟩ := by
        intro c hc
        have hc0 : c = 0 := by omega
        subst hc0
        refine DataBlock.ext' ?_ rfl
        funext t
        exact decode_m1_eq hk hr hkr hlen hnodup horig hrange hrecB hE1 t
      exact applySolution_conclusions _ horig hER hsol
  · obtain ⟨hdet, hsolve⟩ := decode_solve_eq hk hr hkr hlen hnodup horig hrange hrecB
    refine ⟨applySolution k L blocks 0 (fun c =>
      if hcm : c < (erasureList k L blocks).length then
        ⟨fun t => solveVec (decodeMatrix k L blocks)
            (fun a => decodeRHS k L blocks
              ((recoveryBlocks k L blocks).getD a.val default) t) ⟨c, hcm⟩,
          (erasureList k L blocks).getD c 0⟩
      else default), ?_, ?_⟩
    · unfold Decode
      rw [if_neg hvalid, if_neg hE0, if_neg hcnot, if_neg hE1,
        if_neg (show ¬((decodeMatrix k L blocks).det = 0) from hdet)]
    · have hsol : ∀ c, c < (erasureList k L blocks).length →
          ((fun c => if hcm : c < (erasureList k L blocks).length then
              (⟨fun t => solveVec (decodeMatrix k L blocks)
                  (fun a => decodeRHS k L blocks
                    ((recoveryBlocks k L blocks).getD a.val default) t) ⟨c, hcm⟩,
                (erasureList k L blocks).getD c 0⟩ : DataBlock L)
            else default) c) =
          ⟨Oext k L O ((erasureList k L blocks).getD c 0),
            (erasureList k L blocks).getD c 0⟩ := by
        intro c hc
        show (if hcm : c < (erasureList k L blocks).length then
            (⟨fun t => solveVec (decodeMatrix k L blocks)
                (fun a => decodeRHS k L blocks
                  ((recoveryBlocks k L blocks).getD a.val default) t) ⟨c, hcm⟩,
              (erasureList k L blocks).getD c 0⟩ : DataBlock L)
          else default) = _
        rw [dif_pos hc]
        refine DataBlock.ext' ?_ rfl
        funext t
        exact congrFun (hsolve t) ⟨c, hc⟩
      exact applySolution_conclusions _ horig hER hsol

/-- Claim C1: round-trip.  For every valid parameter set (1 ≤ k ≤ 255,
1 ≤ r ≤ 255, k + r ≤ 256, positive block size) and originals, if Encode
produces the recovery blocks and any subset of the originals is deleted and
replaced by distinct recovery blocks so that exactly k blocks are supplied
(survivors carrying their original contents, recovery entries carrying the
encoder output for their index), then Decode succeeds and the reconstructed
list consists of all k original blocks, byte-for-byte, each under its
original index. -/
theorem claim_C1 : ∀ (k r L : Nat) (O : Fin k → Fin L → GF256)
    (recs : Fin r → Fin L → GF256) (blocks : List (DataBlock L)),
    1 ≤ k → k ≤ 255 → 1 ≤ r → r ≤ 255 → k + r ≤ 256 → 1 ≤ L →
    Encode k r L O = Except.ok recs →
    blocks.length = k →
    (blocks.map DataBlock.Index).Nodup →
    (∀ b ∈ blocks, b.Index < k + r) →
    (∀ b ∈ blocks, ∀ h : b.Index < k, b.Block = O ⟨b.Index, h⟩) →
    (∀ b ∈ blocks, k ≤ b.Index → ∃ i : Fin r, i.val = b.Index - k ∧ b.Block = recs i) →
    ∃ out, Decode k r L blocks = Except.ok out ∧ out.length = k ∧
      ∀ j : Fin k, (⟨O j, j.val⟩ : DataBlock L) ∈ out := by
  intro k r L O recs blocks hk hk255 hr hr255 hkr hL henc hlen hnodup hrange horig hrec
  have hrecs : recs = fun i => EncodeOneDataBlock k L O i.val := by
    unfold Encode at henc
    rw [if_pos ⟨hk, hr, hkr, hL⟩] at henc
    injection henc with h
    exact h.symm
  have hrecB : ∀ b ∈ blocks, k ≤ b.Index →
      b.Block = EncodeOneDataBlock k L O (b.Index - k) := by
    intro b hb hbk
    rcases hrec b hb hbk with ⟨i, hi, hbB⟩
    rw [hbB, hrecs]
    show EncodeOneDataBlock k L O i.val = _
    rw [hi]
  obtain ⟨out, hdec, hlen', _, _, hmem⟩ :=
    Decode_correct O blocks hk hr hkr hL hlen hnodup horig hrange hrecB
  exact ⟨out, hdec, by omega, hmem⟩

/-- Claim C2: frame condition of Decode.  In the same setting as the round
trip, on success every supplied block that carried an original index is left
unchanged in place (same buffer, same Index), and every supplied block that
carried a recovery index is rewritten in place to hold a missing original:
its Index becomes that original's index e (an index absent from the supplied
blocks) and its buffer becomes the original block O e byte-for-byte. -/
theorem claim_C2 : ∀ (k r L : Nat) (O : Fin k → Fin L → GF256)
    (recs : Fin r → Fin L → GF256) (blocks out : List (DataBlock L)),
    1 ≤ k → k ≤ 255 → 1 ≤ r → r ≤ 255 → k + r ≤ 256 → 1 ≤ L →
    Encode k r L O = Except.ok recs →
    blocks.length = k →
    (blocks.map DataBlock.Index).Nodup →
    (∀ b ∈ blocks, b.Index < k + r) →
    (∀ b ∈ blocks, ∀ h : b.Index < k, b.Block = O ⟨b.Index, h⟩) →
    (∀ b ∈ blocks, k ≤ b.Index → ∃ i : Fin r, i.val = b.Index - k ∧ b.Block = recs i) →
    Decode k r L blocks = Except.ok out →
    ∀ i, i < blocks.length →
      ((blocks.getD i default).Index < k →
        out.getD i default = blocks.getD i default) ∧
      (k ≤ (blocks.getD i default).Index →
        ∃ e, ∃ he : e < k, (∀ b ∈ blocks, b.Index ≠ e) ∧
          (out.getD i default).Index = e ∧ (out.getD i default).Block = O ⟨e, he⟩) := by
  intro k r L O recs blocks out hk hk255 hr hr255 hkr hL henc hlen hnodup hrange horig hrec hdec
  have hrecs : recs = fun i => EncodeOneDataBlock k L O i.val := by
    unfold Encode at henc
    rw [if_pos ⟨hk, hr, hkr, hL⟩] at henc
    injection henc with h
    exact h.symm
  have hrecB : ∀ b ∈ blocks, k ≤ b.Index →
      b.Block = EncodeOneDataBlock k L O (b.Index - k) := by
    intro b hb hbk
    rcases hrec b hb hbk with ⟨i, hi, hbB⟩
    rw [hbB, hrecs]
    show EncodeOneDataBlock k L O i.val = _
    rw [hi]
  obtain ⟨out', hdec', _, hkeep, hrw, _⟩ :=
    Decode_correct O blocks hk hr hkr hL hlen hnodup horig hrange hrecB
  rw [hdec] at hdec'
  injection hdec' with hoo
  subst hoo
  exact fun i hi => ⟨hkeep i hi, hrw i hi⟩

/-- Concrete witness data: two originals of one byte each (7 and 9). -/
def w1O : Fin 2 → Fin 1 → GF256 := fun j _ => if j.val = 0 then byteGF 7 else byteGF 9

/-- Concrete witness stripe: original 0 survives, original 1 is deleted and
replaced by recovery block 0 (contents 7 XOR 9 = 14, wire index 2). -/
def w1blocks : List (DataBlock 1) := [⟨fun _ => byteGF 7, 0⟩, ⟨fun _ => byteGF 14, 2⟩]

/-- Witness for C1 at k = 2, r = 1, block_bytes = 1: delete original 1,
supply the recovery block, decode succeeds and returns both originals. -/
theorem claim_C1_witness :
    ∃ out, Decode 2 1 1 w1blocks = Except.ok out ∧ out.length = 2 ∧
      ∀ j : Fin 2, (⟨w1O j, j.val⟩ : DataBlock 1) ∈ out :=
  claim_C1 2 1 1 w1O (fun i => EncodeOneDataBlock 2 1 w1O i.val) w1blocks
    (by decide) (by decide) (by decide) (by decide) (by decide) (by decide)
    (by decide) (by decide) (by decide) (by decide) (by decide) (by decide)

/-- Witness for C2 at the same stripe, position 1 (the recovery slot). -/
theorem claim_C2_witness :
    ((w1blocks.getD 1 default).Index < 2 →
      ([(⟨fun _ => byteGF 7, 0⟩ : DataBlock 1), ⟨fun _ => byteGF 9, 1⟩].getD 1 default) =
        w1blocks.getD 1 default) ∧
    (2 ≤ (w1blocks.getD 1 default).Index →
      ∃ e, ∃ he : e < 2, (∀ b ∈ w1blocks, b.Index ≠ e) ∧
        (([(⟨fun _ => byteGF 7, 0⟩ : DataBlock 1), ⟨fun _ => byteGF 9, 1⟩].getD 1
            default)).Index = e ∧
        (([(⟨fun _ => byteGF 7, 0⟩ : DataBlock 1), ⟨fun _ => byteGF 9, 1⟩].getD 1
            default)).Block = w1O ⟨e, he⟩) :=
  claim_C2 2 1 1 w1O (fun i => EncodeOneDataBlock 2 1 w1O i.val) w1blocks
    [⟨fun _ => byteGF 7, 0⟩, ⟨fun _ => byteGF 9, 1⟩]
    (by decide) (by decide) (by decide) (by decide) (by decide) (by decide)
    (by decide) (by decide) (by decide) (by decide) (by decide) (by decide)
    (by decide) 1 (by decide)
